import Mathlib

/-!
# InfoArena — Rating & Attribution Engine: verification development

Shallow embedding of the core computational pieces of the InfoArena
(Knowledge Arena) repository, together with theorems checking the
natural-language specification against them.

Conventions:
* JavaScript numbers are modelled as `ℚ` where the computation is purely
  rational, and as `ℝ` where the source computes with transcendental
  functions (`Math.exp`, `Math.log`, `Math.sqrt`, `Math.PI`).
* The engine files `src/lib/services/glicko2.ts` and
  `src/lib/services/shapley.ts` are not part of the staged sources; the
  fragments of them quoted verbatim in `docs/FAQCheck.md` are embedded
  from those quotes, and the rest is modelled from the specification
  (marked `Modelled from the spec:` on each definition).
-/

namespace InfoArena

/-! ## Topics service (`src/lib/services/topics.ts`)

`CURATED_TOPICS` and `searchCuratedTopics` are embedded from
`src/lib/services/topics.ts`.  JavaScript
`topic.toLowerCase().includes(lowerQuery)` is modelled as a
case-insensitive infix test on the character lists, and
`Array.prototype.slice(0, limit)` as `List.take limit` (the `limit`
argument is a non-negative count). -/

def CURATED_TOPICS : List String := [
  "Artificial Intelligence", "Machine Learning", "Quantum Computing", "Blockchain Technology",
  "CRISPR Gene Editing", "Nuclear Fusion", "Renewable Energy", "Climate Change",
  "Black Holes", "Dark Matter", "String Theory", "Quantum Entanglement",
  "Nanotechnology", "Biotechnology", "Cybersecurity", "Cryptography",
  "Neural Networks", "Computer Vision", "Natural Language Processing", "Robotics",
  "Internet of Things", "Cloud Computing", "5G Technology", "Virtual Reality",
  "Augmented Reality", "Space Exploration", "Mars Colonization", "Asteroid Mining",
  "Gravitational Waves", "Higgs Boson", "Antimatter", "Superconductivity",
  "Stem Cell Research", "Vaccines", "Antibiotics", "Genetic Engineering",
  "Photosynthesis", "Evolution", "DNA", "RNA",
  "Protein Folding", "Plate Tectonics", "Volcanoes", "Earthquakes",
  "Tsunamis", "Hurricanes", "Solar System", "Exoplanets",
  "Galaxies", "Nebulae", "Supernovae", "Ancient Egypt",
  "Roman Empire", "Ancient Greece", "Byzantine Empire", "Medieval Europe",
  "The Renaissance", "Industrial Revolution", "French Revolution", "American Revolution",
  "World War I", "World War II", "The Cold War", "Vietnam War",
  "Korean War", "Civil Rights Movement", "Space Race", "Ancient China",
  "Mongol Empire", "Ottoman Empire", "British Empire", "Silk Road",
  "Age of Exploration", "Colonialism", "Decolonization", "The Enlightenment",
  "Scientific Revolution", "Protestant Reformation", "Crusades", "Black Death",
  "Spanish Flu", "Fall of Constantinople", "Fall of Rome", "Viking Age",
  "Feudalism", "Samurai", "Aztec Empire", "Inca Empire",
  "Maya Civilization", "Mesopotamia", "Indus Valley Civilization", "Bronze Age",
  "Iron Age", "Stone Age", "Neolithic Revolution", "Agricultural Revolution",
  "Stoicism", "Existentialism", "Nihilism", "Utilitarianism",
  "Platonism", "Aristotelian Philosophy", "Kantian Ethics", "Phenomenology",
  "Buddhism", "Hinduism", "Islam", "Christianity",
  "Judaism", "Confucianism", "Taoism", "Shintoism",
  "Zoroastrianism", "Free Will", "Determinism", "Consciousness",
  "Mind-Body Problem", "Ethics", "Metaphysics", "Epistemology",
  "Logic", "Renaissance Art", "Impressionism", "Surrealism",
  "Abstract Expressionism", "Baroque Music", "Classical Music", "Jazz",
  "Blues", "Rock and Roll", "Hip Hop", "Electronic Music",
  "Opera", "Symphony", "Shakespeare", "Greek Tragedy",
  "Modern Literature", "Postmodern Literature", "Film Noir", "Documentary Film",
  "Animation", "Cinema", "Architecture", "Gothic Architecture",
  "Art Deco", "Modernist Architecture", "Photography", "Sculpture",
  "Pottery", "Calligraphy", "Amazon Rainforest", "Great Barrier Reef",
  "Sahara Desert", "Antarctica", "Mount Everest", "Grand Canyon",
  "Niagara Falls", "Victoria Falls", "Pacific Ocean", "Atlantic Ocean",
  "Mediterranean Sea", "Amazon River", "Nile River", "Coral Reefs",
  "Tropical Rainforests", "Tundra", "Biodiversity", "Endangered Species",
  "Conservation", "Ecosystems", "Migration Patterns", "Marine Biology",
  "Ornithology", "Entomology", "Democracy", "Capitalism",
  "Socialism", "Communism", "Globalization", "International Relations",
  "Diplomacy", "Human Rights", "Psychology", "Sociology",
  "Anthropology", "Economics", "Game Theory", "Behavioral Economics",
  "Cognitive Science", "Linguistics", "Urban Planning", "Public Health",
  "Education Systems", "Criminal Justice", "Cardiovascular System", "Nervous System",
  "Immune System", "Digestive System", "Cancer Research", "Alzheimer Disease",
  "Diabetes", "Heart Disease", "Mental Health", "Depression",
  "Anxiety Disorders", "Schizophrenia", "Nutrition", "Exercise Physiology",
  "Sleep Science", "Aging", "Pharmacology", "Surgery",
  "Radiology", "Epidemiology", "Calculus", "Linear Algebra",
  "Number Theory", "Topology", "Game Theory", "Probability Theory",
  "Statistics", "Cryptography", "Prime Numbers", "Infinity",
  "Fractals", "Chaos Theory", "Euclidean Geometry", "Non-Euclidean Geometry",
  "Graph Theory", "Set Theory", "Elephants", "Whales",
  "Dolphins", "Great Apes", "Lions", "Tigers",
  "Bears", "Wolves", "Eagles", "Penguins",
  "Hummingbirds", "Owls", "Sharks", "Octopuses",
  "Jellyfish", "Sea Turtles", "Bees", "Butterflies",
  "Ants", "Spiders", "Dinosaurs", "Woolly Mammoth",
  "Saber-toothed Cat", "Dodo", "Coffee", "Tea",
  "Chocolate", "Wine", "Bread", "Rice",
  "Pasta", "Cheese", "Fermentation", "Organic Farming",
  "Sustainable Agriculture", "Food Security", "Culinary Arts", "Food Science",
  "Nutrition Science", "Gastronomy", "Olympic Games", "FIFA World Cup",
  "Super Bowl", "Tour de France", "Chess", "Go",
  "Poker", "Bridge", "Basketball", "Football",
  "Soccer", "Tennis", "Golf", "Swimming",
  "Marathon Running", "Gymnastics", "Martial Arts", "Boxing",
  "Wrestling", "Fencing", "Social Media", "Streaming Services",
  "E-commerce", "Cryptocurrency", "Electric Vehicles", "Autonomous Vehicles",
  "Drones", "Smart Cities", "Remote Work", "Gig Economy",
  "Startup Culture", "Venture Capital", "Misinformation", "Digital Privacy",
  "Net Neutrality", "Open Source Software", "Great Wall of China", "Pyramids of Giza",
  "Colosseum", "Parthenon", "Eiffel Tower", "Statue of Liberty",
  "Golden Gate Bridge", "Panama Canal", "Hoover Dam", "Burj Khalifa",
  "International Space Station", "Large Hadron Collider", "Dreams", "Memory",
  "Intelligence", "Creativity", "Happiness", "Love",
  "Friendship", "Trust", "Time", "Space",
  "Energy", "Matter", "Colors", "Sound",
  "Light", "Gravity", "Languages", "Writing Systems",
  "Alphabets", "Translation", "Mythology", "Folklore",
  "Legends", "Fairy Tales", "Magic", "Illusions",
  "Puzzles", "Riddles"
]

/-- Does the first list start the second?  A structural-recursion
matcher (kernel-computable, unlike the library's well-founded one). -/
def prefMatch : List Char → List Char → Bool
  | [], _ => true
  | _ :: _, [] => false
  | a :: as, b :: bs => a == b && prefMatch as bs

/-- JavaScript `hay.includes(needle)`: `needle` occurs contiguously
inside `hay`. -/
def subMatch : List Char → List Char → Bool
  | n, [] => n.isEmpty
  | n, b :: bs => prefMatch n (b :: bs) || subMatch n bs

/-- JavaScript `s.toLowerCase()` at the character level. -/
def toLowerChars (s : String) : List Char := s.data.map Char.toLower

theorem prefMatch_iff (n h : List Char) : prefMatch n h = true ↔ n <+: h := by
  induction n generalizing h with
  | nil => simp [prefMatch]
  | cons a as ih =>
    cases h with
    | nil => simp [prefMatch]
    | cons b bs => simp [prefMatch, ih]

theorem subMatch_iff (n h : List Char) : subMatch n h = true ↔ n <:+: h := by
  induction h with
  | nil => cases n <;> simp [subMatch, List.isEmpty]
  | cons b bs ih => simp [subMatch, prefMatch_iff, ih, List.infix_cons_iff]

/-- `searchCuratedTopics` from `src/lib/services/topics.ts`:
lowercase the query, keep the curated topics whose lowercased text
contains it, return at most `limit` of them. -/
def searchCuratedTopics (query : String) (limit : ℕ) : List String :=
  ((CURATED_TOPICS.filter
    fun topic => subMatch (toLowerChars query) (toLowerChars topic)).take limit)

/-! ## Leaderboard blend weights (`src/routes/leaderboard/+page.svelte`)

`normalizeWeights` reads the id set of the `enabledSources` object,
filters it to the enabled ids, sums their weights, and — only when that
total is positive — divides each enabled id's weight by the total.
Weights are a total map `String → ℚ` (the source's `weights[id] || 0`
fallback makes a missing key behave as `0`). -/

def enabledIds (ids : Finset String) (enabled : String → Bool) : Finset String :=
  ids.filter fun i => enabled i

def enabledTotal (ids : Finset String) (enabled : String → Bool) (w : String → ℚ) : ℚ :=
  ∑ i ∈ enabledIds ids enabled, w i

def normalizeWeights (ids : Finset String) (enabled : String → Bool) (w : String → ℚ) :
    String → ℚ :=
  if 0 < enabledTotal ids enabled w then
    fun i => if i ∈ enabledIds ids enabled then w i / enabledTotal ids enabled w else w i
  else w

/-! ## Quality scorer fragments (`src/lib/services/shapley.ts` via `docs/FAQCheck.md`)

The readability and base-accuracy computations are embedded from the
code excerpts quoted in `docs/FAQCheck.md` (sections 20 and 21):

```
const avgWordsPerSentence = sentenceCount > 0 ? wordCount / sentenceCount : 20;
const readability = Math.max(0, Math.min(1, 1 - (avgWordsPerSentence - 15) / 30));

let baseAccuracy = 0.7;
if (sourceName.toLowerCase().includes('britannica')) baseAccuracy = 0.85;
else if (sourceName.toLowerCase().includes('wikipedia')) baseAccuracy = 0.80;
else if (sourceName.toLowerCase().includes('grok')) baseAccuracy = 0.75;
```
-/

def clamp01 (x : ℚ) : ℚ := max 0 (min 1 x)

/-- The code's average words per sentence: `wordCount / sentenceCount`
when at least one sentence was detected, a fixed default of `20`
otherwise. -/
def avgWordsPerSentence (wordCount sentenceCount : ℕ) : ℚ :=
  if 0 < sentenceCount then (wordCount : ℚ) / (sentenceCount : ℚ) else 20

/-- The readability metric as implemented. -/
def readability (wordCount sentenceCount : ℕ) : ℚ :=
  clamp01 (1 - (avgWordsPerSentence wordCount sentenceCount - 15) / 30)

/-- The spec's readability formula (§4.3): `clamp01(1 - (avg - 15)/30)`
with `avg = wordCount / max(sentenceCount, 1)`.  Stated from the spec's
words, for comparison with the implementation. -/
def readabilitySpec (wordCount sentenceCount : ℕ) : ℚ :=
  clamp01 (1 - ((wordCount : ℚ) / (max sentenceCount 1 : ℕ) - 15) / 30)

/-- Case-insensitive substring test, as the code's
`sourceName.toLowerCase().includes(pat)` with `pat` already lowercase. -/
def containsCI (sourceName pat : String) : Bool :=
  subMatch pat.data (toLowerChars sourceName)

/-- The base accuracy selection as implemented: substring matching on
the display name, with precedence britannica, wikipedia, grok. -/
def baseAccuracy (sourceName : String) : ℚ :=
  if containsCI sourceName "britannica" then 85/100
  else if containsCI sourceName "wikipedia" then 80/100
  else if containsCI sourceName "grok" then 75/100
  else 70/100

/-- The stable source identities of the spec's configuration table. -/
inductive SourceIdentity
  | britannica
  | wikipedia
  | grokLike
  | unknown
deriving DecidableEq

/-- The spec's configuration table for base accuracy, keyed by a stable
source identity (§4.3): {britannica: 0.85, wikipedia: 0.80, grok-like:
0.75, unknown: 0.70}.  Stated from the spec's words, for comparison
with the implementation. -/
def specAccuracyTable : SourceIdentity → ℚ
  | .britannica => 85/100
  | .wikipedia => 80/100
  | .grokLike => 75/100
  | .unknown => 70/100

/-! ## Theorems for the topics service and the leaderboard weights -/

/-- C10: `searchCuratedTopics(query, limit)` returns at most `limit`
topics; every returned topic is a curated topic containing the query as
a case-insensitive substring; and the result lists them in the order
they appear in `CURATED_TOPICS` (it is a sublist). -/
theorem searchCuratedTopics_spec (query : String) (limit : ℕ) :
    (searchCuratedTopics query limit).length ≤ limit ∧
    (searchCuratedTopics query limit).Sublist CURATED_TOPICS ∧
    ∀ t ∈ searchCuratedTopics query limit,
      t ∈ CURATED_TOPICS ∧ toLowerChars query <:+: toLowerChars t := by
  refine ⟨?_, ?_, ?_⟩
  · simp only [searchCuratedTopics]
    exact List.length_take_le _ _
  · exact (List.take_sublist _ _).trans (List.filter_sublist _)
  · intro t ht
    have ht' : t ∈ CURATED_TOPICS.filter
        fun topic => subMatch (toLowerChars query) (toLowerChars topic) :=
      List.mem_of_mem_take ht
    rcases List.mem_filter.mp ht' with ⟨hmem, hp⟩
    exact ⟨hmem, (subMatch_iff _ _).mp hp⟩

/-- C9: when the total weight of the enabled sources is positive,
`normalizeWeights` divides each enabled weight by that total and the
enabled weights then sum to 1; when the total is zero, no weight is
rescaled. -/
theorem normalizeWeights_spec (ids : Finset String) (enabled : String → Bool)
    (w : String → ℚ) :
    (0 < enabledTotal ids enabled w →
      (∑ i ∈ enabledIds ids enabled, normalizeWeights ids enabled w i) = 1 ∧
      ∀ i ∈ enabledIds ids enabled,
        normalizeWeights ids enabled w i = w i / enabledTotal ids enabled w) ∧
    (enabledTotal ids enabled w = 0 → normalizeWeights ids enabled w = w) := by
  constructor
  · intro h
    have hw : ∀ i ∈ enabledIds ids enabled,
        normalizeWeights ids enabled w i = w i / enabledTotal ids enabled w := by
      intro i hi
      simp [normalizeWeights, if_pos h, hi]
    refine ⟨?_, hw⟩
    calc (∑ i ∈ enabledIds ids enabled, normalizeWeights ids enabled w i)
        = ∑ i ∈ enabledIds ids enabled, w i / enabledTotal ids enabled w :=
          Finset.sum_congr rfl hw
      _ = (∑ i ∈ enabledIds ids enabled, w i) / enabledTotal ids enabled w :=
          (Finset.sum_div _ _ _).symm
      _ = 1 := div_self h.ne'
  · intro h
    simp [normalizeWeights, h]

/-! ## Theorems for the quality scorer fragments -/

/-- C4, counterexample: with zero sentences detected the code's average
defaults to `20`, not to the full word count, so the claimed formula
disagrees with the implementation at `wordCount = 100`,
`sentenceCount = 0`. -/
theorem readability_zero_sentences_cex :
    readability 100 0 = 5/6 ∧ readabilitySpec 100 0 = 0 ∧
    readability 100 0 ≠ readabilitySpec 100 0 := by
  have h1 : readability 100 0 = 5/6 := by
    norm_num [readability, avgWordsPerSentence, clamp01]
  have h2 : readabilitySpec 100 0 = 0 := by
    norm_num [readabilitySpec, clamp01]
  refine ⟨h1, h2, ?_⟩
  rw [h1, h2]
  norm_num

/-- C4, amended: the readability metric equals
`clamp01(1 - (avg - 15)/30)` where `avg = wordCount / sentenceCount`
when at least one sentence is detected; with zero sentences `avg`
defaults to the constant 20 (so the metric is then `5/6` regardless of
the word count).  The metric always lies in `[0, 1]`. -/
theorem readability_amended (wordCount sentenceCount : ℕ) :
    (0 < sentenceCount →
      readability wordCount sentenceCount = readabilitySpec wordCount sentenceCount) ∧
    readability wordCount 0 = 5/6 ∧
    0 ≤ readability wordCount sentenceCount ∧
    readability wordCount sentenceCount ≤ 1 := by
  refine ⟨?_, ?_, ?_, ?_⟩
  · intro h
    have hmax : max sentenceCount 1 = sentenceCount := Nat.max_eq_left h
    simp [readability, readabilitySpec, avgWordsPerSentence, if_pos h, hmax]
  · norm_num [readability, avgWordsPerSentence, clamp01]
  · exact le_max_left 0 _
  · exact max_le zero_le_one (min_le_left _ _)

/-- C5, counterexample: the base accuracy is selected by substring
matching on the display name, not by a stable-identifier table: the
made-up display name "my-britannica-mirror" — not any known source —
receives 0.85 instead of the unknown-source value 0.70. -/
theorem baseAccuracy_substring_cex :
    baseAccuracy "my-britannica-mirror" = 85/100 ∧
    specAccuracyTable SourceIdentity.unknown = 70/100 ∧
    baseAccuracy "my-britannica-mirror" ≠ specAccuracyTable SourceIdentity.unknown := by
  have hm : containsCI "my-britannica-mirror" "britannica" = true := by decide
  have h1 : baseAccuracy "my-britannica-mirror" = 85/100 := by
    simp [baseAccuracy, hm]
  refine ⟨h1, rfl, ?_⟩
  rw [h1]
  simp only [specAccuracyTable]
  norm_num

/-- C5, amended: the base accuracy is selected by case-insensitive
substring matching on the display name, with precedence britannica
(0.85), then wikipedia (0.80), then grok (0.75), defaulting to 0.70;
the selection depends only on the lowercased display name. -/
theorem baseAccuracy_amended (name : String) :
    (containsCI name "britannica" = true → baseAccuracy name = 85/100) ∧
    (containsCI name "britannica" = false → containsCI name "wikipedia" = true →
      baseAccuracy name = 80/100) ∧
    (containsCI name "britannica" = false → containsCI name "wikipedia" = false →
      containsCI name "grok" = true → baseAccuracy name = 75/100) ∧
    (containsCI name "britannica" = false → containsCI name "wikipedia" = false →
      containsCI name "grok" = false → baseAccuracy name = 70/100) ∧
    ∀ other : String, toLowerChars name = toLowerChars other →
      baseAccuracy name = baseAccuracy other := by
  refine ⟨?_, ?_, ?_, ?_, ?_⟩
  · intro h; simp [baseAccuracy, h]
  · intro h1 h2; simp [baseAccuracy, h1, h2]
  · intro h1 h2 h3; simp [baseAccuracy, h1, h2, h3]
  · intro h1 h2 h3; simp [baseAccuracy, h1, h2, h3]
  · intro other ho
    simp [baseAccuracy, containsCI, ho]

/-! ## ShapleyAttributor

`calculateShapleyValues` lives in `src/lib/services/shapley.ts`
(lines 163–210 per `docs/FAQCheck.md`), which is not among the staged
sources. -/

/-- Modelled from the spec: the subset-form Shapley weight
`|S|!·(n-|S|-1)!/n!` of §4.4 (the repository's `shapley.ts` is not in
the staged sources). -/
def shapleyCoeff (n s : ℕ) : ℚ :=
  ((s.factorial : ℕ) : ℚ) * (((n - s - 1).factorial : ℕ) : ℚ) / ((n.factorial : ℕ) : ℚ)

/-- Modelled from the spec: `φ_i = Σ_{S ⊆ N\{i}} |S|!·(n-|S|-1)!/n! ·
(v(S∪{i}) - v(S))`, computed by exhaustive enumeration of subsets
(§4.4). -/
def shapleyValue {α : Type*} [DecidableEq α] (N : Finset α) (v : Finset α → ℚ) (i : α) : ℚ :=
  ∑ S ∈ (N.erase i).powerset, shapleyCoeff N.card S.card * (v (insert i S) - v S)

/-- Modelled from the spec: `calculateShapleyValues(coalitionValueFn,
sourceIds)` returns the per-source attribution map. -/
def calculateShapleyValues {α : Type*} [DecidableEq α] (N : Finset α) (v : Finset α → ℚ) :
    α → ℚ :=
  fun i => shapleyValue N v i

theorem powerset_erase {α : Type*} [DecidableEq α] (N : Finset α) (i : α) :
    (N.erase i).powerset = N.powerset.filter (fun T => i ∉ T) := by
  ext T
  simp [Finset.mem_powerset, Finset.subset_erase]

/-- Rewriting one player's Shapley value as a sum over all coalitions
`T ⊆ N`, with coefficient `c(|T|-1)` when `i ∈ T` and `-c(|T|)`
otherwise. -/
theorem shapley_expand {α : Type*} [DecidableEq α] (N : Finset α) (v : Finset α → ℚ)
    (i : α) (hi : i ∈ N) :
    shapleyValue N v i = ∑ T ∈ N.powerset,
      (if i ∈ T then shapleyCoeff N.card (T.card - 1)
       else -(shapleyCoeff N.card T.card)) * v T := by
  have part1 :
      (∑ S ∈ (N.erase i).powerset, shapleyCoeff N.card S.card * v (insert i S))
        = ∑ T ∈ N.powerset,
            (if i ∈ T then shapleyCoeff N.card (T.card - 1) * v T else 0) := by
    rw [← Finset.sum_filter]
    refine Finset.sum_bij' (fun S _ => insert i S) (fun T _ => T.erase i) ?_ ?_ ?_ ?_ ?_
    · intro S hS
      rw [Finset.mem_powerset] at hS
      rcases Finset.subset_erase.mp hS with ⟨hsub, hnot⟩
      simp [Finset.mem_filter, Finset.mem_powerset, Finset.insert_subset_iff, hi, hsub]
    · intro T hT
      rw [Finset.mem_filter, Finset.mem_powerset] at hT
      rw [Finset.mem_powerset]
      exact Finset.erase_subset_erase i hT.1
    · intro S hS
      rw [Finset.mem_powerset] at hS
      exact Finset.erase_insert (Finset.subset_erase.mp hS).2
    · intro T hT
      rw [Finset.mem_filter] at hT
      exact Finset.insert_erase hT.2
    · intro S hS
      rw [Finset.mem_powerset] at hS
      have hni : i ∉ S := (Finset.subset_erase.mp hS).2
      rw [Finset.card_insert_of_not_mem hni]
      simp
  have part2 :
      (∑ S ∈ (N.erase i).powerset, shapleyCoeff N.card S.card * v S)
        = ∑ T ∈ N.powerset,
            (if i ∈ T then 0 else shapleyCoeff N.card T.card * v T) := by
    rw [powerset_erase, Finset.sum_filter]
    exact Finset.sum_congr rfl fun T _ => by by_cases h : i ∈ T <;> simp [h]
  calc shapleyValue N v i
      = (∑ S ∈ (N.erase i).powerset, shapleyCoeff N.card S.card * v (insert i S))
        - ∑ S ∈ (N.erase i).powerset, shapleyCoeff N.card S.card * v S := by
        rw [shapleyValue, ← Finset.sum_sub_distrib]
        exact Finset.sum_congr rfl fun S _ => by ring
    _ = ∑ T ∈ N.powerset,
          ((if i ∈ T then shapleyCoeff N.card (T.card - 1) * v T else 0)
            - (if i ∈ T then 0 else shapleyCoeff N.card T.card * v T)) := by
        rw [part1, part2, Finset.sum_sub_distrib]
    _ = _ := by
        refine Finset.sum_congr rfl fun T _ => ?_
        by_cases h : i ∈ T <;> simp [h]

/-- The coalition-size coefficients telescope: summing the coefficient
of `v T` over all players leaves `1` for `T = N`, `-1` for `T = ∅` and
`0` in between. -/
theorem coeff_collapse (n t : ℕ) (ht : t ≤ n) :
    (t : ℚ) * shapleyCoeff n (t - 1) - ((n - t : ℕ) : ℚ) * shapleyCoeff n t
      = (if t = n then 1 else 0) - (if t = 0 then 1 else 0) := by
  have hnfac : ((n.factorial : ℕ) : ℚ) ≠ 0 := by
    exact_mod_cast n.factorial_ne_zero
  rcases Nat.eq_zero_or_pos t with ht0 | htpos
  · subst ht0
    rcases Nat.eq_zero_or_pos n with hn0 | hnpos
    · subst hn0; norm_num [shapleyCoeff]
    · have keyn : ((n : ℕ) : ℚ) * (((n - 1).factorial : ℕ) : ℚ)
          = ((n.factorial : ℕ) : ℚ) := by
        exact_mod_cast Nat.mul_factorial_pred hnpos
      rw [if_neg (by omega : ¬ (0 : ℕ) = n), if_pos rfl]
      simp only [shapleyCoeff, Nat.cast_zero, zero_mul, Nat.sub_zero, Nat.factorial_zero,
        Nat.cast_one, one_mul, zero_sub]
      field_simp
      linear_combination keyn
  · rcases eq_or_lt_of_le ht with hteq | htlt
    · subst hteq
      rw [if_pos rfl, if_neg (by omega : ¬ t = 0)]
      have keyn : ((t : ℕ) : ℚ) * (((t - 1).factorial : ℕ) : ℚ)
          = ((t.factorial : ℕ) : ℚ) := by
        exact_mod_cast Nat.mul_factorial_pred htpos
      simp only [shapleyCoeff]
      rw [show t - (t - 1) - 1 = 0 by omega]
      simp only [Nat.sub_self, Nat.cast_zero, zero_mul, Nat.factorial_zero, Nat.cast_one,
        mul_one, sub_zero]
      field_simp
      linear_combination keyn
    · have h1 : ¬ t = n := by omega
      have h2 : ¬ t = 0 := by omega
      rw [if_neg h1, if_neg h2]
      have key1 : ((t : ℕ) : ℚ) * (((t - 1).factorial : ℕ) : ℚ)
          = ((t.factorial : ℕ) : ℚ) := by
        exact_mod_cast Nat.mul_factorial_pred htpos
      have key2 : (((n - t : ℕ)) : ℚ) * (((n - t - 1).factorial : ℕ) : ℚ)
          = (((n - t).factorial : ℕ) : ℚ) := by
        exact_mod_cast Nat.mul_factorial_pred (by omega : 0 < n - t)
      simp only [shapleyCoeff]
      rw [show n - (t - 1) - 1 = n - t by omega]
      rw [sub_self (0 : ℚ)]
      rw [sub_eq_zero]
      linear_combination ((((n - t).factorial : ℕ) : ℚ) / ((n.factorial : ℕ) : ℚ)) * key1
        - (((t.factorial : ℕ) : ℚ) / ((n.factorial : ℕ) : ℚ)) * key2

/-- Shapley efficiency over any finite player set. -/
theorem shapley_efficiency {α : Type*} [DecidableEq α] (N : Finset α) (v : Finset α → ℚ) :
    (∑ i ∈ N, shapleyValue N v i) = v N - v ∅ := by
  calc (∑ i ∈ N, shapleyValue N v i)
      = ∑ i ∈ N, ∑ T ∈ N.powerset,
          (if i ∈ T then shapleyCoeff N.card (T.card - 1)
           else -(shapleyCoeff N.card T.card)) * v T :=
        Finset.sum_congr rfl fun i hi => shapley_expand N v i hi
    _ = ∑ T ∈ N.powerset,
          (∑ i ∈ N, (if i ∈ T then shapleyCoeff N.card (T.card - 1)
           else -(shapleyCoeff N.card T.card))) * v T := by
        rw [Finset.sum_comm]
        exact Finset.sum_congr rfl fun T _ => (Finset.sum_mul _ _ _).symm
    _ = ∑ T ∈ N.powerset,
          ((if T = N then 1 else 0) - (if T = ∅ then 1 else 0)) * v T := by
        refine Finset.sum_congr rfl fun T hT => ?_
        rw [Finset.mem_powerset] at hT
        congr 1
        rw [Finset.sum_ite, Finset.sum_const, Finset.sum_const]
        have hfilter1 : N.filter (fun i => i ∈ T) = T := by
          rw [Finset.filter_mem_eq_inter, Finset.inter_eq_right.mpr hT]
        have hfilter2 : (N.filter fun i => i ∉ T).card = N.card - T.card := by
          rw [Finset.filter_not, hfilter1, Finset.card_sdiff hT]
        rw [hfilter1, hfilter2]
        rw [nsmul_eq_mul, nsmul_eq_mul, mul_neg, ← sub_eq_add_neg]
        have hcard : T.card ≤ N.card := Finset.card_le_card hT
        have hTN : (T = N) ↔ (T.card = N.card) :=
          ⟨fun h => by rw [h], fun h => Finset.eq_of_subset_of_card_le hT (le_of_eq h.symm)⟩
        have hT0 : (T = ∅) ↔ (T.card = 0) := Finset.card_eq_zero.symm
        rw [if_congr hTN rfl rfl, if_congr hT0 rfl rfl]
        exact coeff_collapse N.card T.card hcard
    _ = v N - v ∅ := by
        have step : ∀ T ∈ N.powerset,
            ((if T = N then (1:ℚ) else 0) - (if T = ∅ then 1 else 0)) * v T
              = (if T = N then v T else 0) - (if T = ∅ then v T else 0) := by
          intro T _
          by_cases h2 : T = ∅
          · subst h2
            by_cases h1 : (∅ : Finset α) = N
            · rw [← h1]
              simp
            · simp [h1]
          · by_cases h1 : T = N
            · have hN : N ≠ ∅ := h1 ▸ h2
              rw [h1]
              simp [hN]
            · simp [h1, h2]
        rw [Finset.sum_congr rfl step, Finset.sum_sub_distrib]
        rw [Finset.sum_ite_eq' N.powerset N v, Finset.sum_ite_eq' N.powerset ∅ v]
        rw [if_pos (Finset.mem_powerset_self N), if_pos (Finset.empty_mem_powerset N)]

/-- The spec's two-source example: sources `A = 0`, `B = 1`, with
`v(∅)=0, v({A})=0.6, v({B})=0.5, v({A,B})=0.8`. -/
def exampleV : Finset ℕ → ℚ := fun S =>
  if S = {0, 1} then 4/5 else if S = {0} then 3/5 else if S = {1} then 1/2 else 0

theorem shapley_exampleA : shapleyValue {0, 1} exampleV 0 = 9/20 := by
  rw [shapleyValue]
  rw [show ({0, 1} : Finset ℕ).erase 0 = {1} from rfl]
  rw [show ({1} : Finset ℕ).powerset = {∅, {1}} from rfl]
  rw [Finset.sum_insert (by decide), Finset.sum_singleton]
  norm_num [exampleV, shapleyCoeff,
    if_neg (by decide : ¬ (({0} : Finset ℕ) = {0, 1})),
    if_neg (by decide : ¬ ((∅ : Finset ℕ) = {0, 1})),
    if_neg (by decide : ¬ ((∅ : Finset ℕ) = {0})),
    if_neg (by decide : ¬ ((∅ : Finset ℕ) = {1})),
    if_neg (by decide : ¬ (({1} : Finset ℕ) = {0, 1}))]

theorem shapley_exampleB : shapleyValue {0, 1} exampleV 1 = 7/20 := by
  rw [shapleyValue]
  rw [show ({0, 1} : Finset ℕ).erase 1 = {0} from rfl]
  rw [show ({0} : Finset ℕ).powerset = {∅, {0}} from rfl]
  rw [Finset.sum_insert (by decide), Finset.sum_singleton]
  norm_num [exampleV, shapleyCoeff,
    if_neg (by decide : ¬ (({1} : Finset ℕ) = {0, 1})),
    if_neg (by decide : ¬ ((∅ : Finset ℕ) = {0, 1})),
    if_neg (by decide : ¬ ((∅ : Finset ℕ) = {0})),
    if_neg (by decide : ¬ ((∅ : Finset ℕ) = {1})),
    if_neg (by decide : ¬ (({0} : Finset ℕ) = {0, 1})),
    if_pos (by decide : (({1, 0} : Finset ℕ) = {0, 1}))]

/-- C2: Shapley efficiency — for every finite source set `N` and every
coalition value function `v` with `v ∅ = 0`, the Shapley values of
`calculateShapleyValues` sum to `v N - v ∅`; and on the spec's
two-source example the values are `φ_A = 0.45`, `φ_B = 0.35`, summing
to `v {A,B} = 0.8`. -/
theorem calculateShapleyValues_efficiency :
    (∀ (β : Type) (inst : DecidableEq β) (N : Finset β) (v : Finset β → ℚ), v ∅ = 0 →
      (∑ i ∈ N, @calculateShapleyValues β inst N v i) = v N - v ∅) ∧
    calculateShapleyValues {0, 1} exampleV 0 = 9/20 ∧
    calculateShapleyValues {0, 1} exampleV 1 = 7/20 ∧
    calculateShapleyValues {0, 1} exampleV 0 + calculateShapleyValues {0, 1} exampleV 1
      = exampleV {0, 1} := by
  refine ⟨?_, ?_, ?_, ?_⟩
  · intro β inst N v _
    exact shapley_efficiency N v
  · exact shapley_exampleA
  · exact shapley_exampleB
  · rw [calculateShapleyValues, calculateShapleyValues, shapley_exampleA, shapley_exampleB]
    norm_num [exampleV]

/-! ## GlickoUpdater

`src/lib/services/glicko2.ts` is not among the staged sources; the
update pipeline below is modelled from spec §4.1 (with the
`expectedScore` and `phiPrime` formulas confirmed verbatim by the
excerpts in `docs/FAQCheck.md`).  JavaScript numbers are modelled as
`ℝ`; ratings enter on the display scale (~1500) and are converted to
the internal Glicko-2 scale by the standard constant 173.7178.
The volatility solver is the spec's bounded bracketing root-finder
(Illinois variant of regula falsi) with explicit `tau`, `eps` and
`maxIter` configuration. -/

noncomputable section
open Classical

/-- Glicko display/internal scale constant 173.7178. -/
def glickoScale : ℝ := 173.7178

/-- A source's rating state `{mu, phi, sigma}` on the display scale. -/
structure Rating where
  mu : ℝ
  phi : ℝ
  sigma : ℝ

/-- Modelled from the spec: the explicit engine configuration of §9 —
volatility constraint `tau`, solver convergence `eps` and iteration
budget `maxIter`. -/
structure GlickoConfig where
  tau : ℝ
  eps : ℝ
  maxIter : ℕ

/-- The spec's typical configuration: `tau = 0.5`, `eps = 1e-6`. -/
def stdConfig : GlickoConfig := ⟨1/2, 1/1000000, 100⟩

/-- Modelled from the spec: `g(phi) = 1 / sqrt(1 + 3 phi² / π²)`. -/
def gFactor (phiJ : ℝ) : ℝ := 1 / Real.sqrt (1 + 3 * phiJ ^ 2 / Real.pi ^ 2)

/-- `E(mu, muJ, phiJ) = 1 / (1 + exp(-g(phiJ)(mu - muJ)))`, as quoted
in `docs/FAQCheck.md` from `glicko2.ts`. -/
def expectedScore (mu muJ phiJ : ℝ) : ℝ :=
  1 / (1 + Real.exp (-(gFactor phiJ) * (mu - muJ)))

/-- Modelled from the spec: `v = 1 / (g(phiJ)² E (1-E))` for the single
opponent of the pairwise model. -/
def vOf (mu muJ phiJ : ℝ) : ℝ :=
  1 / (gFactor phiJ ^ 2 * expectedScore mu muJ phiJ * (1 - expectedScore mu muJ phiJ))

/-- Modelled from the spec: `Δ = v·g(phiJ)·(score - E)`. -/
def deltaOf (mu muJ phiJ score : ℝ) : ℝ :=
  vOf mu muJ phiJ * gFactor phiJ * (score - expectedScore mu muJ phiJ)

/-- Modelled from the spec: the volatility objective
`f(x) = e^x(Δ² - φ² - v - e^x)/(2(φ² + v + e^x)²) - (x - a)/τ²`. -/
def fVol (dsq ph2 v a tau x : ℝ) : ℝ :=
  Real.exp x * (dsq - ph2 - v - Real.exp x) / (2 * (ph2 + v + Real.exp x) ^ 2)
    - (x - a) / tau ^ 2

/-- Modelled from the spec: the lower-bracket search of the standard
algorithm — step down by `tau` until `f` becomes non-negative, bounded
by the iteration budget. -/
def bracketSearch (f : ℝ → ℝ) (tau : ℝ) : ℕ → ℝ → ℝ
  | 0, x => x
  | n + 1, x => if f (x - tau) < 0 then bracketSearch f tau n (x - tau) else x - tau

/-- Modelled from the spec: the Illinois-variant regula-falsi loop,
bounded by a fuel (iteration budget); returns the approximant and a
convergence flag.  The loop exits successfully once `|B - A| ≤ eps`;
running out of fuel reports `false`. -/
def illinois (f : ℝ → ℝ) (eps : ℝ) : ℕ → ℝ → ℝ → ℝ → ℝ → ℝ × Bool
  | 0, A, _, _, _ => (A, false)
  | n + 1, A, B, fA, fB =>
    if |B - A| ≤ eps then (A, true)
    else
      if f (A + (A - B) * fA / (fB - fA)) * fB < 0 then
        illinois f eps n B (A + (A - B) * fA / (fB - fA)) fB
          (f (A + (A - B) * fA / (fB - fA)))
      else
        illinois f eps n A (A + (A - B) * fA / (fB - fA)) (fA / 2)
          (f (A + (A - B) * fA / (fB - fA)))

/-- `a = ln(sigma²)`, the solver's starting point. -/
def volA (sigma : ℝ) : ℝ := Real.log (sigma ^ 2)

def volF (dsq ph2 v sigma tau : ℝ) : ℝ → ℝ := fVol dsq ph2 v (volA sigma) tau

/-- The initial upper bracket `B` of the standard algorithm. -/
def volB (dsq ph2 v sigma : ℝ) (cfg : GlickoConfig) : ℝ :=
  if ph2 + v < dsq then Real.log (dsq - ph2 - v)
  else bracketSearch (volF dsq ph2 v sigma cfg.tau) cfg.tau cfg.maxIter (volA sigma)

def volIter (dsq ph2 v sigma : ℝ) (cfg : GlickoConfig) : ℝ × Bool :=
  illinois (volF dsq ph2 v sigma cfg.tau) cfg.eps cfg.maxIter (volA sigma)
    (volB dsq ph2 v sigma cfg)
    (volF dsq ph2 v sigma cfg.tau (volA sigma))
    (volF dsq ph2 v sigma cfg.tau (volB dsq ph2 v sigma cfg))

/-- Modelled from the spec: the new volatility with its convergence
flag — `exp(A/2)` on success, the prior `sigma` on iteration-budget
exhaustion (fail-soft, §7). -/
def volSolve (dsq ph2 v sigma : ℝ) (cfg : GlickoConfig) : ℝ × Bool :=
  (if (volIter dsq ph2 v sigma cfg).2 then Real.exp ((volIter dsq ph2 v sigma cfg).1 / 2)
   else sigma,
   (volIter dsq ph2 v sigma cfg).2)

def sigmaNewOf (mu phi sigma muJ phiJ score : ℝ) (cfg : GlickoConfig) : ℝ :=
  (volSolve (deltaOf mu muJ phiJ score ^ 2) (phi ^ 2) (vOf mu muJ phiJ) sigma cfg).1

def convOf (mu phi sigma muJ phiJ score : ℝ) (cfg : GlickoConfig) : Bool :=
  (volSolve (deltaOf mu muJ phiJ score ^ 2) (phi ^ 2) (vOf mu muJ phiJ) sigma cfg).2

/-- `phi* = sqrt(phi² + sigma'²)` — pre-update inflation. -/
def phiStarOf (phi sigmaNew : ℝ) : ℝ := Real.sqrt (phi ^ 2 + sigmaNew ^ 2)

/-- `phi' = 1 / sqrt(1/phi*² + 1/v)`, as quoted in `docs/FAQCheck.md`
from `glicko2.ts`. -/
def phiPrimeOf (phiStar v : ℝ) : ℝ := 1 / Real.sqrt (1 / phiStar ^ 2 + 1 / v)

def phiNewOf (mu phi sigma muJ phiJ score : ℝ) (cfg : GlickoConfig) : ℝ :=
  phiPrimeOf (phiStarOf phi (sigmaNewOf mu phi sigma muJ phiJ score cfg)) (vOf mu muJ phiJ)

/-- `mu' = mu + phi'²·g(phiJ)·(score - E)`. -/
def muNewOf (mu phi sigma muJ phiJ score : ℝ) (cfg : GlickoConfig) : ℝ :=
  mu + phiNewOf mu phi sigma muJ phiJ score cfg ^ 2 * gFactor phiJ
    * (score - expectedScore mu muJ phiJ)

/-- Modelled from the spec: one side's rating update against a single
opponent; display-scale in and out; the second component is the
non-convergence warning flag. -/
def updateRating (r rJ : Rating) (score : ℝ) (cfg : GlickoConfig) : Rating × Bool :=
  (⟨muNewOf ((r.mu - 1500) / glickoScale) (r.phi / glickoScale) r.sigma
      ((rJ.mu - 1500) / glickoScale) (rJ.phi / glickoScale) score cfg * glickoScale + 1500,
    phiNewOf ((r.mu - 1500) / glickoScale) (r.phi / glickoScale) r.sigma
      ((rJ.mu - 1500) / glickoScale) (rJ.phi / glickoScale) score cfg * glickoScale,
    sigmaNewOf ((r.mu - 1500) / glickoScale) (r.phi / glickoScale) r.sigma
      ((rJ.mu - 1500) / glickoScale) (rJ.phi / glickoScale) score cfg⟩,
   !(convOf ((r.mu - 1500) / glickoScale) (r.phi / glickoScale) r.sigma
      ((rJ.mu - 1500) / glickoScale) (rJ.phi / glickoScale) score cfg))

/-- `MatchOutcome`: win of A, win of B, or tie (`scoreA ∈ {1, 0, 0.5}`,
`scoreB = 1 - scoreA`). -/
inductive MatchOutcome
  | winA
  | winB
  | tie

def scoreOf : MatchOutcome → ℝ
  | .winA => 1
  | .winB => 0
  | .tie => 1/2

/-- Modelled from the spec: the engine error taxonomy entry for invalid
input (§7). -/
inductive EngineError
  | invalidInput
deriving DecidableEq

/-- Validity of a rating state supplied to `update()`: `phi > 0` and
`sigma > 0`.  (The spec also rejects non-finite `mu`; every `ℝ` of the
embedding is finite, so that clause is vacuous here.) -/
def validRating (r : Rating) : Prop := 0 < r.phi ∧ 0 < r.sigma

/-- Modelled from the spec: `update(ratingA, ratingB, outcome)` —
validates both inputs, then updates both sides symmetrically; returns a
typed `InvalidInput` error on invalid input, and otherwise the new pair
with the combined non-convergence warning flag. -/
def update (rA rB : Rating) (outcome : MatchOutcome) (cfg : GlickoConfig) :
    Except EngineError ((Rating × Rating) × Bool) :=
  if validRating rA ∧ validRating rB then
    .ok (((updateRating rA rB (scoreOf outcome) cfg).1,
          (updateRating rB rA (1 - scoreOf outcome) cfg).1),
         (updateRating rA rB (scoreOf outcome) cfg).2
           || (updateRating rB rA (1 - scoreOf outcome) cfg).2)
  else .error .invalidInput

/-- a configuration whose iteration budget is exhausted immediately,
exercising the solver's non-convergence path -/
def zeroIterConfig : GlickoConfig := ⟨1/2, 1/1000000, 0⟩

/-! ### Positivity facts about the update pipeline -/

theorem glickoScale_pos : 0 < glickoScale := by norm_num [glickoScale]

theorem gFactor_pos (phiJ : ℝ) : 0 < gFactor phiJ := by
  rw [gFactor]
  have hpi := Real.pi_pos
  have h1 : (0:ℝ) < 1 + 3 * phiJ ^ 2 / Real.pi ^ 2 := by positivity
  exact one_div_pos.mpr (Real.sqrt_pos.mpr h1)

theorem expectedScore_pos (mu muJ phiJ : ℝ) : 0 < expectedScore mu muJ phiJ := by
  rw [expectedScore]
  have := Real.exp_pos (-(gFactor phiJ) * (mu - muJ))
  positivity

theorem expectedScore_lt_one (mu muJ phiJ : ℝ) : expectedScore mu muJ phiJ < 1 := by
  rw [expectedScore]
  have h := Real.exp_pos (-(gFactor phiJ) * (mu - muJ))
  rw [div_lt_one (by positivity)]
  linarith

theorem vOf_pos (mu muJ phiJ : ℝ) : 0 < vOf mu muJ phiJ := by
  rw [vOf]
  have h1 := gFactor_pos phiJ
  have h2 := expectedScore_pos mu muJ phiJ
  have h3 := expectedScore_lt_one mu muJ phiJ
  have h4 : 0 < 1 - expectedScore mu muJ phiJ := by linarith
  positivity

theorem phiStarOf_pos (phi s : ℝ) (h : 0 < phi) : 0 < phiStarOf phi s := by
  rw [phiStarOf]
  apply Real.sqrt_pos.mpr
  have h1 : 0 < phi ^ 2 := pow_pos h 2
  have h2 := sq_nonneg s
  linarith

theorem phiPrimeOf_pos (phiStar v : ℝ) (hp : 0 < phiStar) (hv : 0 < v) :
    0 < phiPrimeOf phiStar v := by
  rw [phiPrimeOf]
  have h : 0 < 1 / phiStar ^ 2 + 1 / v := by positivity
  exact one_div_pos.mpr (Real.sqrt_pos.mpr h)

/-- the core uncertainty inequality: `1/sqrt(1/p² + 1/v) ≤ p` -/
theorem phiPrimeOf_le_phiStar (phiStar v : ℝ) (hp : 0 < phiStar) (hv : 0 < v) :
    phiPrimeOf phiStar v ≤ phiStar := by
  rw [phiPrimeOf]
  have hle : 1 / phiStar ^ 2 ≤ 1 / phiStar ^ 2 + 1 / v :=
    le_add_of_nonneg_right (by positivity)
  have h1 : Real.sqrt (1 / phiStar ^ 2) ≤ Real.sqrt (1 / phiStar ^ 2 + 1 / v) :=
    Real.sqrt_le_sqrt hle
  have h2 : Real.sqrt (1 / phiStar ^ 2) = 1 / phiStar := by
    rw [one_div, Real.sqrt_inv, Real.sqrt_sq hp.le, one_div]
  calc 1 / Real.sqrt (1 / phiStar ^ 2 + 1 / v)
      ≤ 1 / Real.sqrt (1 / phiStar ^ 2) := by
        apply one_div_le_one_div_of_le
        · rw [h2]
          positivity
        · exact h1
    _ = phiStar := by rw [h2, one_div_one_div]

theorem sigmaNewOf_pos (mu phi sigma muJ phiJ score : ℝ) (cfg : GlickoConfig)
    (hs : 0 < sigma) : 0 < sigmaNewOf mu phi sigma muJ phiJ score cfg := by
  rw [sigmaNewOf, volSolve]
  by_cases h :
    (volIter (deltaOf mu muJ phiJ score ^ 2) (phi ^ 2) (vOf mu muJ phiJ) sigma cfg).2
  · simp only [h, if_true]
    exact Real.exp_pos _
  · simp only [h, if_false]
    exact hs

theorem phiNewOf_pos (mu phi sigma muJ phiJ score : ℝ) (cfg : GlickoConfig)
    (hphi : 0 < phi) : 0 < phiNewOf mu phi sigma muJ phiJ score cfg :=
  phiPrimeOf_pos _ _ (phiStarOf_pos _ _ hphi) (vOf_pos _ _ _)

/-! ### Claim theorems for the GlickoUpdater -/

/-- C3: the update step never increases the rating uncertainty — the
post-update deviation `phi' = 1/sqrt(1/phi*² + 1/v)` is at most the
pre-update inflated deviation `phi* = sqrt(phi² + sigma'²)`. -/
theorem updateRating_never_inflates (mu phi sigma muJ phiJ score : ℝ)
    (cfg : GlickoConfig) (hphi : 0 < phi) :
    phiNewOf mu phi sigma muJ phiJ score cfg
      ≤ phiStarOf phi (sigmaNewOf mu phi sigma muJ phiJ score cfg) := by
  rw [phiNewOf]
  exact phiPrimeOf_le_phiStar _ _ (phiStarOf_pos _ _ hphi) (vOf_pos _ _ _)

theorem updateRating_never_inflates_witness :
    (0:ℝ) < 1 ∧
    phiNewOf 0 1 (3/50) 0 1 1 stdConfig
      ≤ phiStarOf 1 (sigmaNewOf 0 1 (3/50) 0 1 1 stdConfig) :=
  ⟨by norm_num, updateRating_never_inflates 0 1 (3/50) 0 1 1 stdConfig (by norm_num)⟩

/-- C6: `update` preserves the `phi > 0 ∧ sigma > 0` invariant for both
returned rating states. -/
theorem update_preserves_invariant (rA rB : Rating) (o : MatchOutcome)
    (cfg : GlickoConfig) (h1 : 0 < rA.phi) (h2 : 0 < rA.sigma)
    (h3 : 0 < rB.phi) (h4 : 0 < rB.sigma) :
    ∃ pair warn, update rA rB o cfg = Except.ok (pair, warn) ∧
      0 < pair.1.phi ∧ 0 < pair.1.sigma ∧ 0 < pair.2.phi ∧ 0 < pair.2.sigma := by
  have hvalid : validRating rA ∧ validRating rB := ⟨⟨h1, h2⟩, ⟨h3, h4⟩⟩
  refine ⟨((updateRating rA rB (scoreOf o) cfg).1, (updateRating rB rA (1 - scoreOf o) cfg).1),
    (updateRating rA rB (scoreOf o) cfg).2 || (updateRating rB rA (1 - scoreOf o) cfg).2,
    ?_, ?_, ?_, ?_, ?_⟩
  · rw [update, if_pos hvalid]
  · exact mul_pos (phiNewOf_pos _ _ _ _ _ _ _ (div_pos h1 glickoScale_pos)) glickoScale_pos
  · exact sigmaNewOf_pos _ _ _ _ _ _ _ h2
  · exact mul_pos (phiNewOf_pos _ _ _ _ _ _ _ (div_pos h3 glickoScale_pos)) glickoScale_pos
  · exact sigmaNewOf_pos _ _ _ _ _ _ _ h4

theorem update_preserves_invariant_witness :
    (0:ℝ) < (Rating.mk 1500 350 (3/50)).phi ∧ 0 < (Rating.mk 1500 350 (3/50)).sigma ∧
    (0:ℝ) < (Rating.mk 1400 30 (3/50)).phi ∧ 0 < (Rating.mk 1400 30 (3/50)).sigma ∧
    ∃ pair warn,
      update (Rating.mk 1500 350 (3/50)) (Rating.mk 1400 30 (3/50)) MatchOutcome.winA stdConfig
        = Except.ok (pair, warn) ∧
      0 < pair.1.phi ∧ 0 < pair.1.sigma ∧ 0 < pair.2.phi ∧ 0 < pair.2.sigma :=
  ⟨by norm_num, by norm_num, by norm_num, by norm_num,
   update_preserves_invariant _ _ _ _ (by norm_num) (by norm_num) (by norm_num) (by norm_num)⟩

/-- C7: invalid input (`phi ≤ 0` or `sigma ≤ 0` on either side) is
rejected before any computation with the typed `InvalidInput` error;
`update` is a total function, so no exception escapes and, returning an
error value only, it keeps both input states unchanged. -/
theorem update_rejects_invalid (rA rB : Rating) (o : MatchOutcome) (cfg : GlickoConfig)
    (h : ¬ (validRating rA ∧ validRating rB)) :
    update rA rB o cfg = Except.error EngineError.invalidInput := by
  rw [update, if_neg h]

theorem update_rejects_invalid_witness :
    ¬ (validRating (Rating.mk 1500 0 (3/50)) ∧ validRating (Rating.mk 1400 30 (3/50))) ∧
    update (Rating.mk 1500 0 (3/50)) (Rating.mk 1400 30 (3/50)) MatchOutcome.winA stdConfig
      = Except.error EngineError.invalidInput := by
  have h : ¬ (validRating (Rating.mk 1500 0 (3/50))
      ∧ validRating (Rating.mk 1400 30 (3/50))) := by
    intro hc
    have := hc.1.1
    norm_num [validRating] at this
  exact ⟨h, update_rejects_invalid _ _ _ _ h⟩

/-- C8: when the volatility solver fails to converge within its
iteration budget, the update retains the pre-match `sigma`, surfaces
the warning flag, and still returns a usable positive `phi'` (and a
`mu'`). -/
theorem updateRating_nonconvergence (r rJ : Rating) (score : ℝ) (cfg : GlickoConfig)
    (hphi : 0 < r.phi)
    (hconv : convOf ((r.mu - 1500) / glickoScale) (r.phi / glickoScale) r.sigma
        ((rJ.mu - 1500) / glickoScale) (rJ.phi / glickoScale) score cfg = false) :
    (updateRating r rJ score cfg).1.sigma = r.sigma ∧
    (updateRating r rJ score cfg).2 = true ∧
    0 < (updateRating r rJ score cfg).1.phi := by
  refine ⟨?_, ?_, ?_⟩
  · rw [convOf] at hconv
    simp only [volSolve] at hconv
    simp [updateRating, sigmaNewOf, volSolve, hconv]
  · rw [updateRating]
    simp [hconv]
  · exact mul_pos (phiNewOf_pos _ _ _ _ _ _ _ (div_pos hphi glickoScale_pos)) glickoScale_pos

theorem updateRating_nonconvergence_witness :
    (0:ℝ) < (Rating.mk 1500 350 (3/50)).phi ∧
    convOf (((Rating.mk 1500 350 (3/50)).mu - 1500) / glickoScale)
      ((Rating.mk 1500 350 (3/50)).phi / glickoScale) (Rating.mk 1500 350 (3/50)).sigma
      (((Rating.mk 1400 30 (3/50)).mu - 1500) / glickoScale)
      ((Rating.mk 1400 30 (3/50)).phi / glickoScale) 1 zeroIterConfig = false ∧
    ((updateRating (Rating.mk 1500 350 (3/50)) (Rating.mk 1400 30 (3/50)) 1
        zeroIterConfig).1.sigma = (Rating.mk 1500 350 (3/50)).sigma ∧
      (updateRating (Rating.mk 1500 350 (3/50)) (Rating.mk 1400 30 (3/50)) 1
        zeroIterConfig).2 = true ∧
      0 < (updateRating (Rating.mk 1500 350 (3/50)) (Rating.mk 1400 30 (3/50)) 1
        zeroIterConfig).1.phi) :=
  ⟨by norm_num, rfl,
   updateRating_nonconvergence (Rating.mk 1500 350 (3/50)) (Rating.mk 1400 30 (3/50)) 1
     zeroIterConfig (by norm_num) rfl⟩

end

end InfoArena

/-! ## Verified interval arithmetic for the Glicko-2 reference vector (C1)

A dyadic interval library (`Dy`, `Iv`) with outward rounding, proved
sound against the real semantics, an interval mirror of the Glicko-2
update pipeline, and kernel-checked interval enclosures of the three
reference matches.  The mirror is related to the real-valued model by
the `*_sound` lemmas, so the concrete enclosures transfer to the
noncomputable `updateRating`. -/


namespace InfoArena

structure Dy where
  m : ℤ
  e : ℕ
deriving DecidableEq

namespace Dy

noncomputable def val (d : Dy) : ℝ := (d.m : ℝ) / 2 ^ d.e

def neg (d : Dy) : Dy := ⟨-d.m, d.e⟩

def add (a b : Dy) : Dy :=
  ⟨a.m * 2 ^ (max a.e b.e - a.e) + b.m * 2 ^ (max a.e b.e - b.e), max a.e b.e⟩

def sub (a b : Dy) : Dy := add a (neg b)

def mul (a b : Dy) : Dy := ⟨a.m * b.m, a.e + b.e⟩

def half (a : Dy) : Dy := ⟨a.m, a.e + 1⟩

def roundDn (P : ℕ) (a : Dy) : Dy :=
  if a.e ≤ P then a else ⟨a.m / 2 ^ (a.e - P), P⟩

def roundUp (P : ℕ) (a : Dy) : Dy :=
  if a.e ≤ P then a else ⟨-((-a.m) / 2 ^ (a.e - P)), P⟩

def ble (a b : Dy) : Bool := a.m * 2 ^ b.e ≤ b.m * 2 ^ a.e

def blt (a b : Dy) : Bool := a.m * 2 ^ b.e < b.m * 2 ^ a.e

/-- dyadic lower bound of `a / b` (sound for `0 < b.m`) -/
def divDn (P : ℕ) (a b : Dy) : Dy :=
  ⟨a.m * 2 ^ (b.e + P) / (b.m * 2 ^ a.e), P⟩

def divUp (P : ℕ) (a b : Dy) : Dy :=
  ⟨-((-(a.m * 2 ^ (b.e + P))) / (b.m * 2 ^ a.e)), P⟩

theorem two_pow_pos (e : ℕ) : (0:ℝ) < 2 ^ e := by positivity

theorem val_neg (a : Dy) : (neg a).val = -a.val := by
  simp [neg, val, neg_div]

theorem val_add (a b : Dy) : (add a b).val = a.val + b.val := by
  rcases a with ⟨am, ae⟩
  rcases b with ⟨bm, be⟩
  simp only [add, val]
  have e1 : (2:ℝ) ^ (max ae be - ae) * 2 ^ ae = 2 ^ (max ae be) := by
    rw [← pow_add]
    congr 1
    omega
  have e2 : (2:ℝ) ^ (max ae be - be) * 2 ^ be = 2 ^ (max ae be) := by
    rw [← pow_add]
    congr 1
    omega
  have t1 : ((am:ℝ) * 2 ^ (max ae be - ae)) / 2 ^ (max ae be) = (am:ℝ) / 2 ^ ae := by
    rw [div_eq_div_iff (two_pow_pos _).ne' (two_pow_pos _).ne', mul_assoc, e1]
  have t2 : ((bm:ℝ) * 2 ^ (max ae be - be)) / 2 ^ (max ae be) = (bm:ℝ) / 2 ^ be := by
    rw [div_eq_div_iff (two_pow_pos _).ne' (two_pow_pos _).ne', mul_assoc, e2]
  push_cast
  rw [add_div, t1, t2]

theorem val_mul (a b : Dy) : (mul a b).val = a.val * b.val := by
  rcases a with ⟨am, ae⟩
  rcases b with ⟨bm, be⟩
  simp only [mul, val]
  push_cast
  rw [pow_add]
  ring

theorem val_half (a : Dy) : (half a).val = a.val / 2 := by
  rcases a with ⟨am, ae⟩
  simp only [half, val]
  rw [pow_succ]
  ring

theorem val_sub (a b : Dy) : (sub a b).val = a.val - b.val := by
  rw [sub, val_add, val_neg]
  ring

theorem int_ediv_le (a b : ℤ) (hb : 0 < b) : ((a / b : ℤ) : ℝ) ≤ (a : ℝ) / (b : ℝ) := by
  rw [le_div_iff₀ (by exact_mod_cast hb : (0:ℝ) < (b:ℝ))]
  exact_mod_cast Int.ediv_mul_le a hb.ne'

theorem le_int_ediv_neg (a b : ℤ) (hb : 0 < b) :
    (a : ℝ) / (b : ℝ) ≤ ((-((-a) / b) : ℤ) : ℝ) := by
  have := int_ediv_le (-a) b hb
  push_cast at this ⊢
  have hbr : (0:ℝ) < (b:ℝ) := by exact_mod_cast hb
  rw [neg_div] at this
  linarith

theorem ble_iff (a b : Dy) : ble a b = true ↔ a.val ≤ b.val := by
  rcases a with ⟨am, ae⟩
  rcases b with ⟨bm, be⟩
  simp only [ble, val, decide_eq_true_eq]
  rw [div_le_div_iff₀ (two_pow_pos ae) (two_pow_pos be)]
  constructor
  · intro h
    exact_mod_cast h
  · intro h
    exact_mod_cast h

theorem blt_iff (a b : Dy) : blt a b = true ↔ a.val < b.val := by
  rcases a with ⟨am, ae⟩
  rcases b with ⟨bm, be⟩
  simp only [blt, val, decide_eq_true_eq]
  rw [div_lt_div_iff₀ (two_pow_pos ae) (two_pow_pos be)]
  constructor
  · intro h
    exact_mod_cast h
  · intro h
    exact_mod_cast h

theorem roundDn_le (P : ℕ) (a : Dy) : (roundDn P a).val ≤ a.val := by
  rcases a with ⟨am, ae⟩
  rw [roundDn]
  by_cases h : ae ≤ P
  · rw [if_pos h]
  · rw [if_neg h]
    simp only [val]
    rw [div_le_div_iff₀ (two_pow_pos P) (two_pow_pos ae)]
    have key := int_ediv_le am (2 ^ (ae - P)) (by positivity)
    rw [le_div_iff₀ (by positivity : (0:ℝ) < (((2:ℤ) ^ (ae - P) : ℤ) : ℝ))] at key
    calc ((am / (2 ^ (ae - P)) : ℤ):ℝ) * 2 ^ ae
        = ((am / (2 ^ (ae - P)) : ℤ):ℝ) * (((2:ℤ) ^ (ae - P) :ℤ):ℝ) * 2 ^ P := by
          push_cast
          rw [mul_assoc, ← pow_add]
          congr 2
          omega
      _ ≤ (am:ℝ) * 2 ^ P := by
          have h2 : (0:ℝ) ≤ 2 ^ P := by positivity
          exact mul_le_mul_of_nonneg_right key h2

theorem le_roundUp (P : ℕ) (a : Dy) : a.val ≤ (roundUp P a).val := by
  rcases a with ⟨am, ae⟩
  rw [roundUp]
  by_cases h : ae ≤ P
  · rw [if_pos h]
  · rw [if_neg h]
    simp only [val]
    rw [div_le_div_iff₀ (two_pow_pos ae) (two_pow_pos P)]
    have key := le_int_ediv_neg am (2 ^ (ae - P)) (by positivity)
    rw [div_le_iff₀ (by positivity : (0:ℝ) < (((2:ℤ) ^ (ae - P) : ℤ) : ℝ))] at key
    calc (am:ℝ) * 2 ^ P
        ≤ ((-((-am) / (2 ^ (ae - P))) : ℤ):ℝ) * (((2:ℤ) ^ (ae - P) :ℤ):ℝ) * 2 ^ P := by
          have h2 : (0:ℝ) ≤ 2 ^ P := by positivity
          exact mul_le_mul_of_nonneg_right key h2
      _ = ((-((-am) / (2 ^ (ae - P))) : ℤ):ℝ) * 2 ^ ae := by
          push_cast
          rw [mul_assoc, ← pow_add]
          congr 2
          omega

theorem divDn_le (P : ℕ) (a b : Dy) (hb : 0 < b.m) : (divDn P a b).val ≤ a.val / b.val := by
  rcases a with ⟨am, ae⟩
  rcases b with ⟨bm, be⟩
  simp only [divDn, val] at *
  have hbval : (0:ℝ) < (bm:ℝ) / 2 ^ be := by
    apply div_pos _ (two_pow_pos be)
    exact_mod_cast hb
  have hd : (0:ℤ) < bm * 2 ^ ae := by positivity
  have key := int_ediv_le (am * 2 ^ (be + P)) (bm * 2 ^ ae) hd
  rw [div_le_div_iff₀ (two_pow_pos P) hbval]
  calc ((am * 2 ^ (be + P) / (bm * 2 ^ ae) : ℤ):ℝ) * ((bm:ℝ) / 2 ^ be)
      ≤ ((am * 2 ^ (be + P) :ℤ):ℝ) / ((bm * 2 ^ ae :ℤ):ℝ) * ((bm:ℝ) / 2 ^ be) := by
        apply mul_le_mul_of_nonneg_right key hbval.le
    _ = (am:ℝ) / 2 ^ ae * 2 ^ P := by
        have hbm : (bm:ℝ) ≠ 0 := by
          exact_mod_cast hb.ne'
        push_cast
        field_simp
        ring

theorem le_divUp (P : ℕ) (a b : Dy) (hb : 0 < b.m) : a.val / b.val ≤ (divUp P a b).val := by
  have hrepr : divUp P a b = Dy.neg (divDn P (Dy.neg a) b) := by
    simp [divUp, divDn, neg, neg_mul]
  rw [hrepr, val_neg]
  have h := divDn_le P (Dy.neg a) b hb
  rw [val_neg, neg_div] at h
  linarith

def dmin (a b : Dy) : Dy := if ble a b then a else b

def dmax (a b : Dy) : Dy := if ble a b then b else a

theorem val_dmin (a b : Dy) : (dmin a b).val = min a.val b.val := by
  rw [dmin]
  by_cases h : ble a b
  · rw [if_pos h, min_eq_left ((ble_iff a b).mp h)]
  · rw [if_neg h]
    have : ¬ a.val ≤ b.val := fun hc => h ((ble_iff a b).mpr hc)
    rw [min_eq_right (le_of_not_le this)]

theorem val_dmax (a b : Dy) : (dmax a b).val = max a.val b.val := by
  rw [dmax]
  by_cases h : ble a b
  · rw [if_pos h, max_eq_right ((ble_iff a b).mp h)]
  · rw [if_neg h]
    have : ¬ a.val ≤ b.val := fun hc => h ((ble_iff a b).mpr hc)
    rw [max_eq_left (le_of_not_le this)]

end Dy

/-! ### Intervals with dyadic endpoints -/

structure Iv where
  lo : Dy
  hi : Dy
deriving DecidableEq

/-- `x` lies in the interval `I` -/
def memI (x : ℝ) (I : Iv) : Prop := I.lo.val ≤ x ∧ x ≤ I.hi.val

namespace Iv

def exact (d : Dy) : Iv := ⟨d, d⟩

def ofInt (n : ℤ) : Iv := exact ⟨n, 0⟩

/-- enclosure of the rational `p / q` (`q > 0`) -/
def ratI (P : ℕ) (p q : ℤ) : Iv := ⟨Dy.divDn P ⟨p, 0⟩ ⟨q, 0⟩, Dy.divUp P ⟨p, 0⟩ ⟨q, 0⟩⟩

def negI (I : Iv) : Iv := ⟨I.hi.neg, I.lo.neg⟩

def addI (P : ℕ) (a b : Iv) : Iv :=
  ⟨Dy.roundDn P (a.lo.add b.lo), Dy.roundUp P (a.hi.add b.hi)⟩

def subI (P : ℕ) (a b : Iv) : Iv := addI P a (negI b)

def halfI (a : Iv) : Iv := ⟨a.lo.half, a.hi.half⟩

def mulI (P : ℕ) (a b : Iv) : Iv :=
  ⟨Dy.roundDn P (Dy.dmin (Dy.dmin ((a.lo.mul b.lo)) ((a.lo.mul b.hi)))
      (Dy.dmin ((a.hi.mul b.lo)) ((a.hi.mul b.hi)))),
   Dy.roundUp P (Dy.dmax (Dy.dmax ((a.lo.mul b.lo)) ((a.lo.mul b.hi)))
      (Dy.dmax ((a.hi.mul b.lo)) ((a.hi.mul b.hi))))⟩

def oneD : Dy := ⟨1, 0⟩

def invI (P : ℕ) (I : Iv) : Option Iv :=
  if 0 < I.lo.m ∧ 0 < I.hi.m then
    some ⟨Dy.divDn P oneD I.hi, Dy.divUp P oneD I.lo⟩
  else if I.hi.m < 0 ∧ I.lo.m < 0 then
    some ⟨(Dy.divUp P oneD I.hi.neg).neg, (Dy.divDn P oneD I.lo.neg).neg⟩
  else none

def divI (P : ℕ) (a b : Iv) : Option Iv := (invI P b).map (fun bi => mulI P a bi)

def absI (I : Iv) : Iv :=
  if 0 ≤ I.lo.m then I
  else if I.hi.m ≤ 0 then negI I
  else ⟨⟨0, 0⟩, Dy.dmax I.lo.neg I.hi⟩

def decLe (a b : Iv) : Option Bool :=
  if a.hi.ble b.lo then some true else if b.hi.blt a.lo then some false else none

def decLt (a b : Iv) : Option Bool :=
  if a.hi.blt b.lo then some true else if b.hi.ble a.lo then some false else none

/-! ### Interval soundness -/

theorem memI_exact (d : Dy) : memI d.val (exact d) := ⟨le_refl _, le_refl _⟩

theorem memI_ofInt (n : ℤ) : memI (n : ℝ) (ofInt n) := by
  have : ((⟨n, 0⟩ : Dy)).val = (n : ℝ) := by simp [Dy.val]
  rw [ofInt]
  rw [← this]
  exact memI_exact _

theorem memI_ratI (P : ℕ) (p q : ℤ) (hq : 0 < q) : memI ((p : ℝ) / (q : ℝ)) (ratI P p q) := by
  constructor
  · have h := Dy.divDn_le P ⟨p, 0⟩ ⟨q, 0⟩ hq
    simpa [Dy.val] using h
  · have h := Dy.le_divUp P ⟨p, 0⟩ ⟨q, 0⟩ hq
    simpa [Dy.val] using h

theorem memI_negI {x : ℝ} {I : Iv} (h : memI x I) : memI (-x) (negI I) := by
  rcases h with ⟨h1, h2⟩
  constructor
  · rw [negI, Dy.val_neg]
    linarith
  · rw [negI, Dy.val_neg]
    linarith

theorem memI_addI (P : ℕ) {x y : ℝ} {a b : Iv} (hx : memI x a) (hy : memI y b) :
    memI (x + y) (addI P a b) := by
  rcases hx with ⟨h1, h2⟩
  rcases hy with ⟨h3, h4⟩
  constructor
  · calc (addI P a b).lo.val ≤ (a.lo.add b.lo).val := Dy.roundDn_le _ _
      _ = a.lo.val + b.lo.val := Dy.val_add _ _
      _ ≤ x + y := by linarith
  · calc x + y ≤ a.hi.val + b.hi.val := by linarith
      _ = (a.hi.add b.hi).val := (Dy.val_add _ _).symm
      _ ≤ (addI P a b).hi.val := Dy.le_roundUp _ _

theorem memI_subI (P : ℕ) {x y : ℝ} {a b : Iv} (hx : memI x a) (hy : memI y b) :
    memI (x - y) (subI P a b) := by
  rw [subI, sub_eq_add_neg]
  exact memI_addI P hx (memI_negI hy)

theorem memI_halfI {x : ℝ} {a : Iv} (hx : memI x a) : memI (x / 2) (halfI a) := by
  rcases hx with ⟨h1, h2⟩
  constructor
  · rw [halfI, Dy.val_half]
    linarith
  · rw [halfI, Dy.val_half]
    linarith

theorem mul_bounds {x y a b c d : ℝ} (hx1 : a ≤ x) (hx2 : x ≤ b) (hy1 : c ≤ y) (hy2 : y ≤ d) :
    min (min (a*c) (a*d)) (min (b*c) (b*d)) ≤ x * y ∧
    x * y ≤ max (max (a*c) (a*d)) (max (b*c) (b*d)) := by
  constructor
  · have step1 : min (a * y) (b * y) ≤ x * y := by
      rcases le_or_lt 0 y with hy | hy
      · exact le_trans (min_le_left _ _) (mul_le_mul_of_nonneg_right hx1 hy)
      · exact le_trans (min_le_right _ _) (mul_le_mul_of_nonpos_right hx2 hy.le)
    have step2 : min (a*c) (a*d) ≤ a * y := by
      rcases le_or_lt 0 a with ha | ha
      · exact le_trans (min_le_left _ _) (mul_le_mul_of_nonneg_left hy1 ha)
      · exact le_trans (min_le_right _ _) (mul_le_mul_of_nonpos_left hy2 ha.le)
    have step3 : min (b*c) (b*d) ≤ b * y := by
      rcases le_or_lt 0 b with hb | hb
      · exact le_trans (min_le_left _ _) (mul_le_mul_of_nonneg_left hy1 hb)
      · exact le_trans (min_le_right _ _) (mul_le_mul_of_nonpos_left hy2 hb.le)
    calc min (min (a*c) (a*d)) (min (b*c) (b*d)) ≤ min (a * y) (b * y) :=
          min_le_min step2 step3
      _ ≤ x * y := step1
  · have step1 : x * y ≤ max (a * y) (b * y) := by
      rcases le_or_lt 0 y with hy | hy
      · exact le_trans (mul_le_mul_of_nonneg_right hx2 hy) (le_max_right _ _)
      · exact le_trans (mul_le_mul_of_nonpos_right hx1 hy.le) (le_max_left _ _)
    have step2 : a * y ≤ max (a*c) (a*d) := by
      rcases le_or_lt 0 a with ha | ha
      · exact le_trans (mul_le_mul_of_nonneg_left hy2 ha) (le_max_right _ _)
      · exact le_trans (mul_le_mul_of_nonpos_left hy1 ha.le) (le_max_left _ _)
    have step3 : b * y ≤ max (b*c) (b*d) := by
      rcases le_or_lt 0 b with hb | hb
      · exact le_trans (mul_le_mul_of_nonneg_left hy2 hb) (le_max_right _ _)
      · exact le_trans (mul_le_mul_of_nonpos_left hy1 hb.le) (le_max_left _ _)
    calc x * y ≤ max (a * y) (b * y) := step1
      _ ≤ max (max (a*c) (a*d)) (max (b*c) (b*d)) := max_le_max step2 step3

theorem memI_mulI (P : ℕ) {x y : ℝ} {a b : Iv} (hx : memI x a) (hy : memI y b) :
    memI (x * y) (mulI P a b) := by
  rcases hx with ⟨h1, h2⟩
  rcases hy with ⟨h3, h4⟩
  have hb := mul_bounds h1 h2 h3 h4
  constructor
  · calc (mulI P a b).lo.val
        ≤ (Dy.dmin (Dy.dmin ((a.lo.mul b.lo)) ((a.lo.mul b.hi)))
            (Dy.dmin ((a.hi.mul b.lo)) ((a.hi.mul b.hi)))).val := Dy.roundDn_le _ _
      _ = min (min (a.lo.val * b.lo.val) (a.lo.val * b.hi.val))
            (min (a.hi.val * b.lo.val) (a.hi.val * b.hi.val)) := by
          rw [Dy.val_dmin, Dy.val_dmin, Dy.val_dmin, Dy.val_mul, Dy.val_mul, Dy.val_mul,
            Dy.val_mul]
      _ ≤ x * y := hb.1
  · calc x * y
        ≤ max (max (a.lo.val * b.lo.val) (a.lo.val * b.hi.val))
            (max (a.hi.val * b.lo.val) (a.hi.val * b.hi.val)) := hb.2
      _ = (Dy.dmax (Dy.dmax ((a.lo.mul b.lo)) ((a.lo.mul b.hi)))
            (Dy.dmax ((a.hi.mul b.lo)) ((a.hi.mul b.hi)))).val := by
          rw [Dy.val_dmax, Dy.val_dmax, Dy.val_dmax, Dy.val_mul, Dy.val_mul, Dy.val_mul,
            Dy.val_mul]
      _ ≤ (mulI P a b).hi.val := Dy.le_roundUp _ _

theorem dy_pos_val {d : Dy} (h : 0 < d.m) : 0 < d.val := by
  rcases d with ⟨m, e⟩
  exact div_pos (by exact_mod_cast h) (Dy.two_pow_pos e)

theorem dy_neg_val {d : Dy} (h : d.m < 0) : d.val < 0 := by
  rcases d with ⟨m, e⟩
  apply div_neg_of_neg_of_pos _ (Dy.two_pow_pos e)
  exact_mod_cast h

theorem dy_nonneg_val {d : Dy} (h : 0 ≤ d.m) : 0 ≤ d.val := by
  rcases d with ⟨m, e⟩
  exact div_nonneg (by exact_mod_cast h) (Dy.two_pow_pos e).le

theorem dy_nonpos_val {d : Dy} (h : d.m ≤ 0) : d.val ≤ 0 := by
  rcases d with ⟨m, e⟩
  apply div_nonpos_of_nonpos_of_nonneg _ (Dy.two_pow_pos e).le
  exact_mod_cast h

theorem oneD_val : oneD.val = 1 := by simp [oneD, Dy.val]

theorem memI_invI (P : ℕ) {x : ℝ} {I : Iv} (hx : memI x I) {J : Iv}
    (hJ : invI P I = some J) : memI (1 / x) J := by
  rcases hx with ⟨h1, h2⟩
  rw [invI] at hJ
  by_cases hpos : 0 < I.lo.m ∧ 0 < I.hi.m
  · rw [if_pos hpos] at hJ
    have hlov : 0 < I.lo.val := dy_pos_val hpos.1
    have hhiv : 0 < I.hi.val := dy_pos_val hpos.2
    have hxpos : 0 < x := lt_of_lt_of_le hlov h1
    cases hJ
    constructor
    · calc (Dy.divDn P oneD I.hi).val ≤ oneD.val / I.hi.val := Dy.divDn_le _ _ _ hpos.2
        _ = 1 / I.hi.val := by rw [oneD_val]
        _ ≤ 1 / x := one_div_le_one_div_of_le hxpos h2
    · calc 1 / x ≤ 1 / I.lo.val := one_div_le_one_div_of_le hlov h1
        _ = oneD.val / I.lo.val := by rw [oneD_val]
        _ ≤ (Dy.divUp P oneD I.lo).val := Dy.le_divUp _ _ _ hpos.1
  · rw [if_neg hpos] at hJ
    by_cases hneg : I.hi.m < 0 ∧ I.lo.m < 0
    · rw [if_pos hneg] at hJ
      have hlov : I.lo.val < 0 := dy_neg_val hneg.2
      have hhiv : I.hi.val < 0 := dy_neg_val hneg.1
      have hxneg : x < 0 := lt_of_le_of_lt h2 hhiv
      have hnx : 0 < -x := by linarith
      cases hJ
      have e1 : I.hi.neg.m = -I.hi.m := rfl
      have hnh : 0 < I.hi.neg.m := by rw [e1]; omega
      have e2 : I.lo.neg.m = -I.lo.m := rfl
      have hnl : 0 < I.lo.neg.m := by rw [e2]; omega
      constructor
      · rw [Dy.val_neg]
        have step : 1 / (-x) ≤ (Dy.divUp P oneD I.hi.neg).val := by
          calc 1 / (-x) ≤ 1 / I.hi.neg.val := by
                apply one_div_le_one_div_of_le
                · rw [Dy.val_neg]; linarith
                · rw [Dy.val_neg]; linarith
            _ = oneD.val / I.hi.neg.val := by rw [oneD_val]
            _ ≤ (Dy.divUp P oneD I.hi.neg).val := Dy.le_divUp _ _ _ hnh
        have : 1 / x = -(1 / (-x)) := by
          field_simp
        rw [this]
        linarith
      · rw [Dy.val_neg]
        have step : (Dy.divDn P oneD I.lo.neg).val ≤ 1 / (-x) := by
          calc (Dy.divDn P oneD I.lo.neg).val ≤ oneD.val / I.lo.neg.val :=
                Dy.divDn_le _ _ _ hnl
            _ = 1 / I.lo.neg.val := by rw [oneD_val]
            _ ≤ 1 / (-x) := by
                apply one_div_le_one_div_of_le hnx
                rw [Dy.val_neg]
                linarith
        have : 1 / x = -(1 / (-x)) := by
          field_simp
        rw [this]
        linarith
    · rw [if_neg hneg] at hJ
      exact absurd hJ (by simp)

theorem memI_divI (P : ℕ) {x y : ℝ} {a b : Iv} (hx : memI x a) (hy : memI y b) {J : Iv}
    (hJ : divI P a b = some J) : memI (x / y) J := by
  rw [divI] at hJ
  rcases hinv : invI P b with _ | bi
  · rw [hinv] at hJ
    exact absurd hJ (by simp)
  · rw [hinv] at hJ
    injection (show some (Iv.mulI P a bi) = some J from hJ) with hh
    have hmem := memI_invI P hy hinv
    rw [div_eq_mul_one_div]
    rw [← hh]
    exact memI_mulI P hx hmem

theorem memI_absI {x : ℝ} {I : Iv} (hx : memI x I) : memI |x| (absI I) := by
  rcases hx with ⟨h1, h2⟩
  rw [absI]
  by_cases hp : 0 ≤ I.lo.m
  · rw [if_pos hp]
    have := dy_nonneg_val hp
    have hx0 : 0 ≤ x := le_trans this h1
    rw [abs_of_nonneg hx0]
    exact ⟨h1, h2⟩
  · rw [if_neg hp]
    by_cases hn : I.hi.m ≤ 0
    · rw [if_pos hn]
      have := dy_nonpos_val hn
      have hx0 : x ≤ 0 := le_trans h2 this
      rw [abs_of_nonpos hx0]
      exact memI_negI ⟨h1, h2⟩
    · rw [if_neg hn]
      constructor
      · have : ((⟨0, 0⟩ : Dy)).val = 0 := by simp [Dy.val]
        rw [this]
        exact abs_nonneg x
      · rw [Dy.val_dmax, Dy.val_neg]
        apply abs_le.mpr
        constructor
        · have hm : -I.lo.val ≤ max (-I.lo.val) I.hi.val := le_max_left _ _
          linarith
        · exact le_trans h2 (le_max_right _ _)

theorem decLe_true {x y : ℝ} {a b : Iv} (hx : memI x a) (hy : memI y b)
    (h : decLe a b = some true) : x ≤ y := by
  rw [decLe] at h
  by_cases hc : a.hi.ble b.lo
  · have := (Dy.ble_iff _ _).mp hc
    exact le_trans hx.2 (le_trans this hy.1)
  · rw [if_neg hc] at h
    by_cases hc2 : b.hi.blt a.lo
    · rw [if_pos hc2] at h
      exact absurd h (by simp)
    · rw [if_neg hc2] at h
      exact absurd h (by simp)

theorem decLe_false {x y : ℝ} {a b : Iv} (hx : memI x a) (hy : memI y b)
    (h : decLe a b = some false) : ¬ (x ≤ y) := by
  rw [decLe] at h
  by_cases hc : a.hi.ble b.lo
  · rw [if_pos hc] at h
    exact absurd h (by simp)
  · rw [if_neg hc] at h
    by_cases hc2 : b.hi.blt a.lo
    · have := (Dy.blt_iff _ _).mp hc2
      have : y < x := lt_of_le_of_lt hy.2 (lt_of_lt_of_le this hx.1)
      exact not_le.mpr this
    · rw [if_neg hc2] at h
      exact absurd h (by simp)

theorem decLt_true {x y : ℝ} {a b : Iv} (hx : memI x a) (hy : memI y b)
    (h : decLt a b = some true) : x < y := by
  rw [decLt] at h
  by_cases hc : a.hi.blt b.lo
  · have := (Dy.blt_iff _ _).mp hc
    exact lt_of_le_of_lt hx.2 (lt_of_lt_of_le this hy.1)
  · rw [if_neg hc] at h
    by_cases hc2 : b.hi.ble a.lo
    · rw [if_pos hc2] at h
      exact absurd h (by simp)
    · rw [if_neg hc2] at h
      exact absurd h (by simp)

theorem decLt_false {x y : ℝ} {a b : Iv} (hx : memI x a) (hy : memI y b)
    (h : decLt a b = some false) : ¬ (x < y) := by
  rw [decLt] at h
  by_cases hc : a.hi.blt b.lo
  · rw [if_pos hc] at h
    exact absurd h (by simp)
  · rw [if_neg hc] at h
    by_cases hc2 : b.hi.ble a.lo
    · have := (Dy.ble_iff _ _).mp hc2
      exact not_lt.mpr (le_trans hy.2 (le_trans this hx.1))
    · rw [if_neg hc2] at h
      exact absurd h (by simp)

end Iv

end InfoArena

namespace InfoArena

/-! ### Integer and dyadic square roots -/

/-- Heron (Newton) iteration for the integer square root; the result
is only used through run-time checks, so no convergence proof is
needed. -/
def heronGo (N : ℕ) : ℕ → ℕ → ℕ
  | 0, r => r
  | f + 1, r => heronGo N f ((r + N / r) / 2)

/-- bit length by binary search (shallow recursion) -/
def blenGo (n : ℕ) : ℕ → ℕ → ℕ → ℕ
  | 0, _, hi => hi
  | f + 1, lo, hi =>
      if hi ≤ lo + 1 then hi
      else if n < 2 ^ ((lo + hi) / 2) then blenGo n f lo ((lo + hi) / 2)
      else blenGo n f ((lo + hi) / 2) hi

def blen2 (n : ℕ) : ℕ := if n = 0 then 0 else blenGo n 11 0 1024

/-- integer square-root candidate: Heron from `2 ^ (blen2 N / 2 + 1)`,
corrected downward by one when the candidate overshoots. -/
def isqrt (F N : ℕ) : ℕ :=
  if heronGo N F (2 ^ (blen2 N / 2 + 1)) * heronGo N F (2 ^ (blen2 N / 2 + 1)) ≤ N
  then heronGo N F (2 ^ (blen2 N / 2 + 1))
  else heronGo N F (2 ^ (blen2 N / 2 + 1)) - 1

namespace Dy

/-- the integer scaled by `4^P`, floor-rounded: `⌊a · 4^P⌋`-ish -/
def scaledDn (P : ℕ) (a : Dy) : ℕ :=
  (if a.e ≤ 2 * P then a.m * 2 ^ (2 * P - a.e) else a.m / 2 ^ (a.e - 2 * P)).toNat

def scaledUp (P : ℕ) (a : Dy) : ℕ :=
  (if a.e ≤ 2 * P then a.m * 2 ^ (2 * P - a.e) else -((-a.m) / 2 ^ (a.e - 2 * P))).toNat

def sqrtDn (P F : ℕ) (a : Dy) : Dy :=
  if isqrt F (scaledDn P a) * isqrt F (scaledDn P a) ≤ scaledDn P a
  then ⟨(isqrt F (scaledDn P a) : ℤ), P⟩ else ⟨0, 0⟩

def sqrtUp (P F : ℕ) (a : Dy) : Dy :=
  if a.m ≤ 0 then ⟨0, 0⟩
  else
    if scaledUp P a < (isqrt F (scaledUp P a) + 1) * (isqrt F (scaledUp P a) + 1) then
      ⟨(isqrt F (scaledUp P a) : ℤ) + 1, P⟩
    else ⟨(scaledUp P a : ℤ) + 1, 0⟩

theorem four_pow_eq (P : ℕ) : (4:ℝ) ^ P = (2 ^ P) ^ 2 := by
  rw [show (4:ℝ) = 2 ^ 2 by norm_num, ← pow_mul, ← pow_mul, mul_comm 2 P]

theorem toNat_cast_real {a : ℤ} (h : 0 ≤ a) : ((a.toNat : ℕ) : ℝ) = (a : ℝ) := by
  rw [← Int.cast_natCast, Int.toNat_of_nonneg h]

theorem scaledDn_le (P : ℕ) (a : Dy) (hm : 0 ≤ a.m) :
    ((scaledDn P a : ℕ) : ℝ) ≤ a.val * 4 ^ P := by
  rcases a with ⟨m, e⟩
  simp only [scaledDn, val] at *
  have h4 : (4:ℝ) ^ P = 2 ^ (2 * P) := by
    rw [show (4:ℝ) = 2 ^ 2 by norm_num, ← pow_mul]
  by_cases he : e ≤ 2 * P
  · rw [if_pos he]
    have hnn : (0:ℤ) ≤ m * 2 ^ (2 * P - e) := by positivity
    rw [toNat_cast_real hnn]
    push_cast
    have heq : (m:ℝ) * 2 ^ (2 * P) / 2 ^ e = (m:ℝ) * 2 ^ (2 * P - e) := by
      rw [div_eq_iff (two_pow_pos e).ne', mul_assoc, ← pow_add,
        show 2 * P - e + e = 2 * P from by omega]
    rw [h4, div_mul_eq_mul_div, heq]
  · rw [if_neg he]
    have hd : (0:ℤ) < 2 ^ (e - 2 * P) := by positivity
    have hnn : (0:ℤ) ≤ m / 2 ^ (e - 2 * P) := Int.ediv_nonneg hm hd.le
    rw [toNat_cast_real hnn]
    have key := int_ediv_le m (2 ^ (e - 2 * P)) hd
    calc ((m / 2 ^ (e - 2 * P) : ℤ) : ℝ)
        ≤ (m : ℝ) / (((2:ℤ) ^ (e - 2 * P) : ℤ) : ℝ) := key
      _ = (m : ℝ) / 2 ^ e * 4 ^ P := by
          push_cast
          rw [div_mul_eq_mul_div, div_eq_div_iff (by positivity) (two_pow_pos e).ne']
          rw [h4, mul_assoc, ← pow_add, show 2 * P + (e - 2 * P) = e from by omega]

theorem le_scaledUp (P : ℕ) (a : Dy) (hm : 0 ≤ a.m) :
    a.val * 4 ^ P ≤ ((scaledUp P a : ℕ) : ℝ) := by
  rcases a with ⟨m, e⟩
  simp only [scaledUp, val] at *
  have h4 : (4:ℝ) ^ P = 2 ^ (2 * P) := by
    rw [show (4:ℝ) = 2 ^ 2 by norm_num, ← pow_mul]
  by_cases he : e ≤ 2 * P
  · rw [if_pos he]
    have hnn : (0:ℤ) ≤ m * 2 ^ (2 * P - e) := by positivity
    rw [toNat_cast_real hnn]
    push_cast
    have heq : (m:ℝ) * 2 ^ (2 * P) / 2 ^ e = (m:ℝ) * 2 ^ (2 * P - e) := by
      rw [div_eq_iff (two_pow_pos e).ne', mul_assoc, ← pow_add,
        show 2 * P - e + e = 2 * P from by omega]
    rw [h4, div_mul_eq_mul_div, heq]
  · rw [if_neg he]
    have hd : (0:ℤ) < 2 ^ (e - 2 * P) := by positivity
    have hnn : (0:ℤ) ≤ -((-m) / 2 ^ (e - 2 * P)) := by
      rw [le_neg, neg_zero]
      calc (-m) / 2 ^ (e - 2 * P) ≤ 0 / 2 ^ (e - 2 * P) :=
            Int.ediv_le_ediv hd (by omega)
        _ = 0 := Int.zero_ediv _
    rw [toNat_cast_real hnn]
    have key := le_int_ediv_neg m (2 ^ (e - 2 * P)) hd
    have epow : (2:ℝ) ^ (e - 2 * P) * 4 ^ P = 2 ^ e := by
      rw [four_pow_eq, ← pow_mul, ← pow_add]
      congr 1
      omega
    have hEq : (m:ℝ) / 2 ^ e * 4 ^ P = (m : ℝ) / (((2:ℤ) ^ (e - 2 * P) : ℤ) : ℝ) := by
      push_cast
      rw [div_mul_eq_mul_div, div_eq_div_iff (two_pow_pos e).ne' (by positivity)]
      rw [mul_comm ((2:ℝ) ^ (e - 2*P)) ((4:ℝ) ^ P)] at epow
      rw [mul_assoc, epow]
    rw [hEq]
    exact key

theorem sqrtDn_le (P F : ℕ) (a : Dy) : (sqrtDn P F a).val ≤ Real.sqrt a.val := by
  rw [sqrtDn]
  by_cases hc : isqrt F (scaledDn P a) * isqrt F (scaledDn P a) ≤ scaledDn P a
  · rw [if_pos hc]
    rcases lt_or_le a.m 0 with hm | hm
    · have hz : scaledDn P a = 0 := by
        rcases a with ⟨m, e⟩
        simp only [scaledDn] at *
        apply Int.toNat_of_nonpos
        by_cases he : e ≤ 2 * P
        · rw [if_pos he]
          have : (0:ℤ) < 2 ^ (2 * P - e) := by positivity
          exact mul_nonpos_of_nonpos_of_nonneg (by omega) this.le
        · rw [if_neg he]
          have hd : (0:ℤ) < 2 ^ (e - 2 * P) := by positivity
          calc m / 2 ^ (e - 2 * P) ≤ 0 / 2 ^ (e - 2 * P) := Int.ediv_le_ediv hd (by omega)
            _ = 0 := Int.zero_ediv _
      rw [hz] at hc
      have hiz : isqrt F (scaledDn P a) = 0 := by
        rw [hz]
        exact mul_self_eq_zero.mp (Nat.le_zero.mp hc)
      rw [hiz]
      have : ((⟨((0:ℕ) : ℤ), P⟩ : Dy)).val = 0 := by simp [val]
      rw [this]
      exact Real.sqrt_nonneg _
    · set N := scaledDn P a with hN
      set r := isqrt F N with hr
      have hle := scaledDn_le P a hm
      rw [← hN] at hle
      have hv0 : 0 ≤ a.val := by
        have h4 : (0:ℝ) < 4 ^ P := by positivity
        have h0 : (0:ℝ) ≤ a.val * 4 ^ P := le_trans (Nat.cast_nonneg N) hle
        nlinarith [h0, h4]
      have hval : ((⟨(r : ℤ), P⟩ : Dy)).val = (r : ℝ) / 2 ^ P := by simp [val]
      rw [hval]
      have hsq : ((r : ℝ) / 2 ^ P) ^ 2 ≤ a.val := by
        rw [div_pow, div_le_iff₀ (by positivity)]
        calc ((r:ℝ)) ^ 2 = ((r * r : ℕ) : ℝ) := by push_cast; ring
          _ ≤ (N : ℝ) := by exact_mod_cast hc
          _ ≤ a.val * 4 ^ P := hle
          _ = a.val * (2 ^ P) ^ 2 := by rw [four_pow_eq]
      exact (Real.le_sqrt (by positivity) hv0).mpr hsq
  · rw [if_neg hc]
    have : ((⟨0, 0⟩ : Dy)).val = 0 := by simp [val]
    rw [this]
    exact Real.sqrt_nonneg _

theorem le_sqrtUp (P F : ℕ) (a : Dy) : Real.sqrt a.val ≤ (sqrtUp P F a).val := by
  rw [sqrtUp]
  by_cases hm : a.m ≤ 0
  · rw [if_pos hm]
    have : ((⟨0, 0⟩ : Dy)).val = 0 := by simp [val]
    rw [this, Real.sqrt_eq_zero_of_nonpos (Iv.dy_nonpos_val hm)]
  · rw [if_neg hm]
    push_neg at hm
    set N := scaledUp P a with hN
    set r := isqrt F N with hr
    have hub := le_scaledUp P a hm.le
    rw [← hN] at hub
    have hsub : Real.sqrt a.val ≤ Real.sqrt ((N:ℝ) / 4 ^ P) := by
      apply Real.sqrt_le_sqrt
      rw [le_div_iff₀ (by positivity)]
      exact hub
    by_cases hc : N < (r + 1) * (r + 1)
    · rw [if_pos hc]
      have hval : ((⟨(r : ℤ) + 1, P⟩ : Dy)).val = ((r:ℝ) + 1) / 2 ^ P := by
        simp [val]
      rw [hval]
      refine le_trans hsub ?_
      have hNle : (N : ℝ) ≤ ((r:ℝ) + 1) ^ 2 := by
        have : (N : ℕ) ≤ (r + 1) * (r + 1) := hc.le
        calc (N:ℝ) ≤ (((r+1) * (r+1) : ℕ) : ℝ) := by exact_mod_cast this
          _ = ((r:ℝ) + 1) ^ 2 := by push_cast; ring
      calc Real.sqrt ((N:ℝ) / 4 ^ P)
          ≤ Real.sqrt (((r:ℝ) + 1) ^ 2 / 4 ^ P) := by
            apply Real.sqrt_le_sqrt
            gcongr
        _ = ((r:ℝ) + 1) / 2 ^ P := by
            rw [four_pow_eq, ← div_pow, Real.sqrt_sq (by positivity)]
    · rw [if_neg hc]
      have hval : ((⟨(N : ℤ) + 1, 0⟩ : Dy)).val = (N:ℝ) + 1 := by
        simp [val]
      rw [hval]
      refine le_trans hsub ?_
      have h1 : (N : ℝ) / 4 ^ P ≤ ((N:ℝ) + 1) ^ 2 := by
        have h2 : (N : ℝ) / 4 ^ P ≤ (N : ℝ) := by
          apply div_le_self (Nat.cast_nonneg N)
          have : (1:ℝ) ≤ 4 := by norm_num
          calc (1:ℝ) = 1 ^ P := (one_pow P).symm
            _ ≤ 4 ^ P := pow_le_pow_left₀ (by norm_num) this P
        nlinarith [Nat.cast_nonneg (α := ℝ) N]
      calc Real.sqrt ((N:ℝ) / 4 ^ P) ≤ Real.sqrt (((N:ℝ) + 1) ^ 2) :=
            Real.sqrt_le_sqrt h1
        _ = (N:ℝ) + 1 := Real.sqrt_sq (by positivity)

end Dy

/-! interval square root -/

namespace Iv

def sqrtI (P F : ℕ) (I : Iv) : Iv := ⟨Dy.sqrtDn P F I.lo, Dy.sqrtUp P F I.hi⟩

theorem memI_sqrtI (P F : ℕ) {x : ℝ} {I : Iv} (hx : memI x I) :
    memI (Real.sqrt x) (sqrtI P F I) := by
  rcases hx with ⟨h1, h2⟩
  constructor
  · exact le_trans (Dy.sqrtDn_le P F I.lo) (Real.sqrt_le_sqrt h1)
  · exact le_trans (Real.sqrt_le_sqrt h2) (Dy.le_sqrtUp P F I.hi)

end Iv

end InfoArena

namespace InfoArena
namespace Iv

/-! ### Interval exponential via Taylor series on `[-1, 1]` -/

/-- divide an interval by a positive integer -/
def divIntI (P : ℕ) (I : Iv) (n : ℤ) : Iv :=
  ⟨Dy.divDn P I.lo ⟨n, 0⟩, Dy.divUp P I.hi ⟨n, 0⟩⟩

theorem memI_divIntI (P : ℕ) {x : ℝ} {I : Iv} (hx : memI x I) (n : ℤ) (hn : 0 < n) :
    memI (x / (n : ℝ)) (divIntI P I n) := by
  rcases hx with ⟨h1, h2⟩
  have hnr : (0:ℝ) < (n : ℝ) := by exact_mod_cast hn
  constructor
  · calc (Dy.divDn P I.lo ⟨n, 0⟩).val ≤ I.lo.val / ((⟨n, 0⟩ : Dy)).val :=
        Dy.divDn_le _ _ _ hn
      _ = I.lo.val / (n : ℝ) := by simp [Dy.val]
      _ ≤ x / (n : ℝ) := by gcongr
  · calc x / (n : ℝ) ≤ I.hi.val / (n : ℝ) := by gcongr
      _ = I.hi.val / ((⟨n, 0⟩ : Dy)).val := by simp [Dy.val]
      _ ≤ (Dy.divUp P I.hi ⟨n, 0⟩).val := Dy.le_divUp _ _ _ hn

/-- the Taylor loop: `i` is the next term index, `pw` encloses `y^i`,
`acc` encloses the partial sum over `j < i`. -/
def taylorGo (P : ℕ) (yI : Iv) : ℕ → ℕ → Iv → Iv → Iv
  | 0, _, _, acc => acc
  | t + 1, i, pw, acc =>
      taylorGo P yI t (i + 1) (mulI P pw yI) (addI P acc (divIntI P pw (i.factorial : ℤ)))

theorem taylorGo_sound (P : ℕ) {y : ℝ} {yI : Iv} (hy : memI y yI) :
    ∀ (t i : ℕ) (pw acc : Iv), memI (y ^ i) pw →
      memI (∑ j ∈ Finset.range i, y ^ j / (j.factorial : ℝ)) acc →
      memI (∑ j ∈ Finset.range (i + t), y ^ j / (j.factorial : ℝ))
        (taylorGo P yI t i pw acc) := by
  intro t
  induction t with
  | zero =>
    intro i pw acc _ hacc
    simpa using hacc
  | succ t ih =>
    intro i pw acc hpw hacc
    rw [taylorGo]
    have hterm : memI (y ^ i / (i.factorial : ℝ)) (divIntI P pw (i.factorial : ℤ)) := by
      have := memI_divIntI P hpw (i.factorial : ℤ) (by exact_mod_cast i.factorial_pos)
      simpa using this
    have hacc' : memI (∑ j ∈ Finset.range (i + 1), y ^ j / (j.factorial : ℝ))
        (addI P acc (divIntI P pw (i.factorial : ℤ))) := by
      rw [Finset.sum_range_succ]
      exact memI_addI P hacc hterm
    have hpw' : memI (y ^ (i + 1)) (mulI P pw yI) := by
      rw [pow_succ]
      exact memI_mulI P hpw hy
    have := ih (i + 1) _ _ hpw' hacc'
    rw [show i + 1 + t = i + (t + 1) from by omega] at this
    exact this

/-- enclosure of `Σ_{j<24} y^j/j!` -/
def expTaylorI (P : ℕ) (yI : Iv) : Iv :=
  taylorGo P yI 24 0 (ofInt 1) (exact ⟨0, 0⟩)

theorem memI_expTaylorI (P : ℕ) {y : ℝ} {yI : Iv} (hy : memI y yI) :
    memI (∑ j ∈ Finset.range 24, y ^ j / (j.factorial : ℝ)) (expTaylorI P yI) := by
  have h1 : memI (y ^ 0) (ofInt 1) := by
    rw [pow_zero]
    exact_mod_cast memI_ofInt 1
  have h0 : memI (∑ j ∈ Finset.range 0, y ^ j / (j.factorial : ℝ)) (exact ⟨0, 0⟩) := by
    simp only [Finset.range_zero, Finset.sum_empty]
    have : ((⟨0, 0⟩ : Dy)).val = 0 := by simp [Dy.val]
    rw [← this]
    exact memI_exact _
  have := taylorGo_sound P hy 24 0 _ _ h1 h0
  simpa only [zero_add] using this

/-- the Taylor remainder bound for 24 terms on `[-1,1]`: `25/(24!·24)` -/
def remExp (P : ℕ) : Dy := Dy.divUp P ⟨25, 0⟩ ⟨(24 * Nat.factorial 24 : ℕ), 0⟩

/-- enclosure of `exp y` for `y ∈ [-1, 1]` -/
def expUnitI (P : ℕ) (yI : Iv) : Iv :=
  ⟨(expTaylorI P yI).lo.sub (remExp P), (expTaylorI P yI).hi.add (remExp P)⟩

theorem memI_expUnitI (P : ℕ) {y : ℝ} {yI : Iv} (hy : memI y yI) (hy1 : |y| ≤ 1) :
    memI (Real.exp y) (expUnitI P yI) := by
  have hS := memI_expTaylorI P hy
  have hbound := Real.exp_bound hy1 (by norm_num : 0 < 24)
  have hrem : ((25 : ℝ) / ((24 * Nat.factorial 24 : ℕ) : ℝ)) ≤ (remExp P).val := by
    have := Dy.le_divUp P ⟨25, 0⟩ ⟨(24 * Nat.factorial 24 : ℕ), 0⟩ (by positivity)
    calc (25 : ℝ) / ((24 * Nat.factorial 24 : ℕ) : ℝ)
        = ((⟨25, 0⟩ : Dy)).val / ((⟨((24 * Nat.factorial 24 : ℕ) : ℤ), 0⟩ : Dy)).val := by
          simp [Dy.val]
      _ ≤ (remExp P).val := this
  have habs : |Real.exp y - ∑ j ∈ Finset.range 24, y ^ j / (j.factorial : ℝ)|
      ≤ (25 : ℝ) / ((24 * Nat.factorial 24 : ℕ) : ℝ) := by
    refine le_trans hbound ?_
    have h1 : |y| ^ 24 ≤ 1 := by
      apply pow_le_one₀ (abs_nonneg y) hy1
    have h2 : ((24:ℕ).succ : ℝ) / ((24:ℕ).factorial * 24) = 25 / ((24 * Nat.factorial 24 : ℕ) : ℝ) := by
      push_cast
      ring_nf
    calc |y| ^ 24 * (((24:ℕ).succ : ℝ) / ((24:ℕ).factorial * 24))
        ≤ 1 * (((24:ℕ).succ : ℝ) / ((24:ℕ).factorial * 24)) := by
          apply mul_le_mul_of_nonneg_right h1
          positivity
      _ = 25 / ((24 * Nat.factorial 24 : ℕ) : ℝ) := by rw [one_mul, h2]
  rw [abs_le] at habs
  constructor
  · rw [expUnitI]
    rw [Dy.val_sub]
    have := hS.1
    linarith [hrem]
  · rw [expUnitI]
    rw [Dy.val_add]
    have := hS.2
    linarith [hrem]

/-- enclosure of `x^2` valid when `0 ≤ x` -/
def sqNN (P : ℕ) (I : Iv) : Iv :=
  ⟨Dy.roundDn P ((Dy.dmax ⟨0, 0⟩ I.lo).mul (Dy.dmax ⟨0, 0⟩ I.lo)),
   Dy.roundUp P (I.hi.mul I.hi)⟩

theorem memI_sqNN (P : ℕ) {x : ℝ} {I : Iv} (hx : memI x I) (hx0 : 0 ≤ x) :
    memI (x ^ 2) (sqNN P I) := by
  rcases hx with ⟨h1, h2⟩
  have hz : ((⟨0, 0⟩ : Dy)).val = 0 := by simp [Dy.val]
  constructor
  · calc (sqNN P I).lo.val ≤ ((Dy.dmax ⟨0, 0⟩ I.lo).mul (Dy.dmax ⟨0, 0⟩ I.lo)).val :=
        Dy.roundDn_le _ _
      _ = max 0 I.lo.val * max 0 I.lo.val := by
          rw [Dy.val_mul, Dy.val_dmax, hz]
      _ ≤ x * x := by
          apply mul_self_le_mul_self (le_max_left _ _)
          exact max_le hx0 h1
      _ = x ^ 2 := by ring
  · calc x ^ 2 = x * x := by ring
      _ ≤ I.hi.val * I.hi.val := mul_self_le_mul_self hx0 h2
      _ = (I.hi.mul I.hi).val := (Dy.val_mul _ _).symm
      _ ≤ (sqNN P I).hi.val := Dy.le_roundUp _ _

/-- `exp` on an interval: range-reduce by 8, Taylor on `[-1,1]`,
square three times.  `none` when the reduced argument may leave
`[-1,1]`. -/
def expI (P : ℕ) (xI : Iv) : Option Iv :=
  if Dy.ble (absI ⟨⟨xI.lo.m, xI.lo.e + 3⟩, ⟨xI.hi.m, xI.hi.e + 3⟩⟩).hi ⟨1, 0⟩ then
    some (sqNN P (sqNN P (sqNN P
      (expUnitI P ⟨⟨xI.lo.m, xI.lo.e + 3⟩, ⟨xI.hi.m, xI.hi.e + 3⟩⟩))))
  else none

set_option maxRecDepth 16000 in
theorem memI_expI (P : ℕ) {x : ℝ} {xI : Iv} (hx : memI x xI) {J : Iv}
    (hJ : expI P xI = some J) : memI (Real.exp x) J := by
  rw [expI] at hJ
  set yI : Iv := ⟨⟨xI.lo.m, xI.lo.e + 3⟩, ⟨xI.hi.m, xI.hi.e + 3⟩⟩ with hyI
  by_cases hc : Dy.ble (absI yI).hi ⟨1, 0⟩ = true
  · rw [if_pos hc] at hJ
    have hy : memI (x / 8) yI := by
      rcases hx with ⟨h1, h2⟩
      constructor
      · have : yI.lo.val = xI.lo.val / 8 := by
          rcases xI with ⟨⟨lm, le⟩, hi⟩
          simp only [hyI, Dy.val]
          rw [pow_add]
          norm_num
          ring
        rw [this]
        linarith
      · have : yI.hi.val = xI.hi.val / 8 := by
          rcases xI with ⟨lo, ⟨hm, he⟩⟩
          simp only [hyI, Dy.val]
          rw [pow_add]
          norm_num
          ring
        rw [this]
        linarith
    have habs : |x / 8| ≤ 1 := by
      have hmem := memI_absI hy
      have h1 := (Dy.ble_iff _ _).mp hc
      have honev : ((⟨1, 0⟩ : Dy)).val = 1 := by simp [Dy.val]
      rw [honev] at h1
      exact le_trans hmem.2 h1
    have hE := memI_expUnitI P hy habs
    have hexp8 : Real.exp x = Real.exp (x / 8) ^ 8 := by
      rw [← Real.exp_nat_mul]
      congr 1
      push_cast
      ring
    obtain rfl : sqNN P (sqNN P (sqNN P (expUnitI P yI))) = J := Option.some.inj hJ
    rw [hexp8]
    have e2 : Real.exp (x / 8) ^ 8 = (((Real.exp (x / 8)) ^ 2) ^ 2) ^ 2 := by ring
    rw [e2]
    apply memI_sqNN
    · apply memI_sqNN
      · exact memI_sqNN P hE (Real.exp_pos _).le
      · positivity
    · positivity
  · rw [if_neg hc] at hJ
    exact absurd hJ (by simp)

end Iv
end InfoArena

namespace InfoArena
namespace Iv

/-! ### Interval logarithm via the `log(1-t)` series -/

/-- series loop: `pw` encloses `t^(i+1)`, `acc` the sum of the first
`i` series terms `t^(j+1)/(j+1)`. -/
def logGo (P : ℕ) (tI : Iv) : ℕ → ℕ → Iv → Iv → Iv
  | 0, _, _, acc => acc
  | n + 1, i, pw, acc =>
      logGo P tI n (i + 1) (mulI P pw tI) (addI P acc (divIntI P pw ((i : ℤ) + 1)))

theorem logGo_sound (P : ℕ) {t : ℝ} {tI : Iv} (ht : memI t tI) :
    ∀ (n i : ℕ) (pw acc : Iv), memI (t ^ (i + 1)) pw →
      memI (∑ j ∈ Finset.range i, t ^ (j + 1) / ((j : ℝ) + 1)) acc →
      memI (∑ j ∈ Finset.range (i + n), t ^ (j + 1) / ((j : ℝ) + 1))
        (logGo P tI n i pw acc) := by
  intro n
  induction n with
  | zero =>
    intro i pw acc _ hacc
    simpa using hacc
  | succ n ih =>
    intro i pw acc hpw hacc
    rw [logGo]
    have hterm : memI (t ^ (i + 1) / ((i : ℝ) + 1)) (divIntI P pw ((i : ℤ) + 1)) := by
      have := memI_divIntI P hpw ((i : ℤ) + 1) (by omega)
      have hc : (((i : ℤ) + 1 : ℤ) : ℝ) = (i : ℝ) + 1 := by push_cast; ring
      rw [hc] at this
      exact this
    have hacc' : memI (∑ j ∈ Finset.range (i + 1), t ^ (j + 1) / ((j : ℝ) + 1))
        (addI P acc (divIntI P pw ((i : ℤ) + 1))) := by
      rw [Finset.sum_range_succ]
      exact memI_addI P hacc hterm
    have hpw' : memI (t ^ (i + 1 + 1)) (mulI P pw tI) := by
      rw [pow_succ]
      exact memI_mulI P hpw ht
    have := ih (i + 1) _ _ hpw' hacc'
    rw [show i + 1 + n = i + (n + 1) from by omega] at this
    exact this

/-- enclosure of `Σ_{j<80} t^(j+1)/(j+1)` -/
def logSeriesI (P : ℕ) (tI : Iv) : Iv := logGo P tI 80 0 tI (exact ⟨0, 0⟩)

theorem memI_logSeriesI (P : ℕ) {t : ℝ} {tI : Iv} (ht : memI t tI) :
    memI (∑ j ∈ Finset.range 80, t ^ (j + 1) / ((j : ℝ) + 1)) (logSeriesI P tI) := by
  have h1 : memI (t ^ (0 + 1)) tI := by
    rw [pow_one]
    exact ht
  have h0 : memI (∑ j ∈ Finset.range 0, t ^ (j + 1) / ((j : ℝ) + 1)) (exact ⟨0, 0⟩) := by
    simp only [Finset.range_zero, Finset.sum_empty]
    have : ((⟨0, 0⟩ : Dy)).val = 0 := by simp [Dy.val]
    rw [← this]
    exact memI_exact _
  have := logGo_sound P ht 80 0 _ _ h1 h0
  simpa only [zero_add] using this

/-- remainder bound `2^-80` for the 80-term series with `|t| ≤ 1/2` -/
def remLog : Dy := ⟨1, 80⟩

/-- enclosure of `log(1-t)` for `t ∈ tI`, requiring `|t| ≤ 1/2` -/
def logOneSubI (P : ℕ) (tI : Iv) : Option Iv :=
  if Dy.ble (absI tI).hi ⟨1, 1⟩ then
    some ⟨((logSeriesI P tI).hi.add remLog).neg, ((logSeriesI P tI).lo.sub remLog).neg⟩
  else none

set_option maxRecDepth 16000 in
theorem memI_logOneSubI (P : ℕ) {t : ℝ} {tI : Iv} (ht : memI t tI) {J : Iv}
    (hJ : logOneSubI P tI = some J) : memI (Real.log (1 - t)) J := by
  rw [logOneSubI] at hJ
  by_cases hc : Dy.ble (absI tI).hi ⟨1, 1⟩ = true
  · rw [if_pos hc] at hJ
    obtain rfl : (⟨((logSeriesI P tI).hi.add remLog).neg,
        ((logSeriesI P tI).lo.sub remLog).neg⟩ : Iv) = J := Option.some.inj hJ
    have hhalf : |t| ≤ 1 / 2 := by
      have hmem := memI_absI ht
      have h1 := (Dy.ble_iff _ _).mp hc
      have hv : ((⟨1, 1⟩ : Dy)).val = 1 / 2 := by norm_num [Dy.val]
      rw [hv] at h1
      exact le_trans hmem.2 h1
    have hlt : |t| < 1 := lt_of_le_of_lt hhalf (by norm_num)
    have hbound := Real.abs_log_sub_add_sum_range_le hlt 80
    have hrem : |t| ^ (80 + 1) / (1 - |t|) ≤ remLog.val := by
      have hv : remLog.val = 1 / 2 ^ 80 := by norm_num [remLog, Dy.val]
      rw [hv]
      have h1 : |t| ^ (80 + 1) ≤ (1 / 2 : ℝ) ^ (80 + 1) := by
        apply pow_le_pow_left₀ (abs_nonneg t) hhalf
      have h2 : (1 : ℝ) - |t| ≥ 1 / 2 := by linarith
      have h3 : |t| ^ (80 + 1) / (1 - |t|) ≤ (1 / 2 : ℝ) ^ (80 + 1) / (1 / 2) := by
        apply div_le_div₀ (by positivity) h1 (by norm_num) h2
      refine le_trans h3 ?_
      rw [div_pow, one_pow, pow_succ]
      norm_num
    have hS := memI_logSeriesI P ht
    have habs : |(∑ j ∈ Finset.range 80, t ^ (j + 1) / ((j : ℝ) + 1)) + Real.log (1 - t)|
        ≤ remLog.val := by
      refine le_trans ?_ hrem
      have hcast : (∑ j ∈ Finset.range 80, t ^ (j + 1) / ((j : ℝ) + 1))
          = ∑ i ∈ Finset.range 80, t ^ (i + 1) / (i + 1) := by
        apply Finset.sum_congr rfl
        intro j _
        norm_num
      rw [hcast]
      exact hbound
    rw [abs_le] at habs
    constructor
    · rw [Dy.val_neg, Dy.val_add]
      have := hS.2
      linarith
    · rw [Dy.val_neg, Dy.val_sub]
      have := hS.1
      linarith
  · rw [if_neg hc] at hJ
    exact absurd hJ (by simp)

/-- enclosure of `log 2` -/
def log2I (P : ℕ) : Iv :=
  ⟨(logSeriesI P (exact ⟨1, 1⟩)).lo.sub remLog, (logSeriesI P (exact ⟨1, 1⟩)).hi.add remLog⟩

theorem memI_log2I (P : ℕ) : memI (Real.log 2) (log2I P) := by
  have h12 : |(1:ℝ)/2| = (1:ℝ)/2 := abs_of_nonneg (by norm_num)
  have hv : ((⟨1, 1⟩ : Dy)).val = 1 / 2 := by norm_num [Dy.val]
  have ht : memI ((1:ℝ)/2) (exact ⟨1, 1⟩) := by
    rw [← hv]
    exact memI_exact _
  have hS := memI_logSeriesI P ht
  have hbound := Real.abs_log_sub_add_sum_range_le (x := (1:ℝ)/2) (by rw [h12]; norm_num) 80
  have hlog : Real.log (1 - 1/2) = - Real.log 2 := by
    rw [show (1:ℝ) - 1/2 = 2⁻¹ by norm_num, Real.log_inv]
  rw [hlog] at hbound
  have hrem : |(1:ℝ)/2| ^ (80 + 1) / (1 - |(1:ℝ)/2|) ≤ remLog.val := by
    rw [h12]
    have hv2 : remLog.val = 1 / 2 ^ 80 := by norm_num [remLog, Dy.val]
    rw [hv2]
    rw [div_pow, one_pow, pow_succ]
    rw [show (1:ℝ) - 1/2 = 1/2 by norm_num]
    norm_num
  have habs : |(∑ j ∈ Finset.range 80, ((1:ℝ)/2) ^ (j + 1) / ((j : ℝ) + 1)) + (- Real.log 2)|
      ≤ remLog.val := by
    refine le_trans ?_ hrem
    have hcast : (∑ j ∈ Finset.range 80, ((1:ℝ)/2) ^ (j + 1) / ((j : ℝ) + 1))
        = ∑ i ∈ Finset.range 80, ((1:ℝ)/2) ^ (i + 1) / (i + 1) := by
      apply Finset.sum_congr rfl
      intro j _
      norm_num
    rw [hcast]
    exact hbound
  rw [abs_le] at habs
  constructor
  · rw [log2I]
    rw [Dy.val_sub]
    have := hS.1
    simp only at this ⊢
    linarith
  · rw [log2I]
    rw [Dy.val_add]
    have := hS.2
    simp only at this ⊢
    linarith

end Iv
end InfoArena

namespace InfoArena
namespace Iv

/-! ### Logarithm of a dyadic and of an interval -/

def logDyAux (P : ℕ) (x : Dy) (l : ℕ) : Option Iv :=
  match logOneSubI P (exact (Dy.sub ⟨1, 0⟩ ⟨x.m, l⟩)) with
  | some lt => some (addI P lt (mulI P (exact ⟨(l : ℤ) - (x.e : ℤ), 0⟩) (log2I P)))
  | none => none

/-- enclosure of `log x` for a positive dyadic `x`, by normalising the
mantissa into `[3/4, 3/2)` (checked at run time through the series
guard) and adding the exponent times `log 2`. -/
def logDy (P : ℕ) (x : Dy) : Option Iv :=
  if 0 < x.m then
    logDyAux P x (if Dy.blt ⟨x.m, blen2 x.m.toNat - 1⟩ ⟨3, 1⟩
      then blen2 x.m.toNat - 1 else blen2 x.m.toNat)
  else none

theorem memI_logDyAux (P : ℕ) (x : Dy) (l : ℕ) (hm : 0 < x.m) {J : Iv}
    (hJ : logDyAux P x l = some J) : memI (Real.log x.val) J := by
  rw [logDyAux] at hJ
  rcases hlt : logOneSubI P (exact (Dy.sub ⟨1, 0⟩ ⟨x.m, l⟩)) with _ | lt
  · rw [hlt] at hJ
    exact absurd hJ (by simp)
  · rw [hlt] at hJ
    obtain rfl : addI P lt (mulI P (exact ⟨(l : ℤ) - (x.e : ℤ), 0⟩) (log2I P)) = J :=
      Option.some.inj hJ
    set u : Dy := ⟨x.m, l⟩ with hu
    have huval : 0 < u.val := dy_pos_val hm
    have htval : (Dy.sub ⟨1, 0⟩ u).val = 1 - u.val := by
      rw [Dy.val_sub]
      have : ((⟨1, 0⟩ : Dy)).val = 1 := by norm_num [Dy.val]
      rw [this]
    have hmemt : memI ((Dy.sub ⟨1, 0⟩ u).val) (exact (Dy.sub ⟨1, 0⟩ u)) := memI_exact _
    have hlog1 := memI_logOneSubI P hmemt hlt
    have hlogu : memI (Real.log u.val) lt := by
      have : 1 - (Dy.sub ⟨1, 0⟩ u).val = u.val := by
        rw [htval]
        ring
      rw [this] at hlog1
      exact hlog1
    have hxval : x.val = u.val * (2:ℝ) ^ ((l : ℤ) - (x.e : ℤ)) := by
      have h2 : (2:ℝ) ^ ((l : ℤ) - (x.e : ℤ)) = 2 ^ l / 2 ^ x.e := by
        rw [zpow_sub₀ (by norm_num : (2:ℝ) ≠ 0), zpow_natCast, zpow_natCast]
      rw [h2, hu]
      rcases x with ⟨m, e⟩
      simp only [Dy.val]
      field_simp
    have hlogx : Real.log x.val
        = Real.log u.val + ((l : ℤ) - (x.e : ℤ)) * Real.log 2 := by
      rw [hxval, Real.log_mul huval.ne' (by positivity), Real.log_zpow]
      push_cast
      ring
    rw [hlogx]
    apply memI_addI P hlogu
    have hjmem : memI ((((l : ℤ) - (x.e : ℤ)) : ℝ)) (exact ⟨(l : ℤ) - (x.e : ℤ), 0⟩) := by
      have : ((⟨(l : ℤ) - (x.e : ℤ), 0⟩ : Dy)).val = (((l : ℤ) - (x.e : ℤ)) : ℝ) := by
        simp [Dy.val]
      rw [← this]
      exact memI_exact _
    exact memI_mulI P hjmem (memI_log2I P)

theorem memI_logDy (P : ℕ) (x : Dy) {J : Iv} (hJ : logDy P x = some J) :
    0 < x.m ∧ memI (Real.log x.val) J := by
  rw [logDy] at hJ
  by_cases hm : 0 < x.m
  · rw [if_pos hm] at hJ
    exact ⟨hm, memI_logDyAux P x _ hm hJ⟩
  · rw [if_neg hm] at hJ
    exact absurd hJ (by simp)

def logI (P : ℕ) (I : Iv) : Option Iv :=
  match logDy P I.lo, logDy P I.hi with
  | some a, some b => some ⟨a.lo, b.hi⟩
  | some _, none => none
  | none, _ => none

theorem memI_logI (P : ℕ) {x : ℝ} {I : Iv} (hx : memI x I) {J : Iv}
    (hJ : logI P I = some J) : memI (Real.log x) J := by
  rw [logI] at hJ
  rcases ha : logDy P I.lo with _ | a
  · rw [ha] at hJ
    exact absurd hJ (by simp)
  · rcases hb : logDy P I.hi with _ | b
    · rw [ha, hb] at hJ
      exact absurd hJ (by simp)
    · rw [ha, hb] at hJ
      obtain rfl : (⟨a.lo, b.hi⟩ : Iv) = J := Option.some.inj hJ
      obtain ⟨hma, hlo⟩ := memI_logDy P I.lo ha
      obtain ⟨hmb, hhi⟩ := memI_logDy P I.hi hb
      have hlov : 0 < I.lo.val := dy_pos_val hma
      have hxpos : 0 < x := lt_of_lt_of_le hlov hx.1
      constructor
      · exact le_trans hlo.1 (Real.log_le_log hlov hx.1)
      · exact le_trans (Real.log_le_log hxpos hx.2) hhi.2

/-! ### π enclosure from the Mathlib 20-digit bounds -/

def piI (P : ℕ) : Iv :=
  ⟨Dy.divDn P ⟨314159265358979323846, 0⟩ ⟨100000000000000000000, 0⟩,
   Dy.divUp P ⟨314159265358979323847, 0⟩ ⟨100000000000000000000, 0⟩⟩

theorem memI_piI (P : ℕ) : memI Real.pi (piI P) := by
  constructor
  · have h1 := Dy.divDn_le P ⟨314159265358979323846, 0⟩ ⟨100000000000000000000, 0⟩
      (by norm_num)
    have h2 : ((⟨(314159265358979323846 : ℤ), 0⟩ : Dy)).val
        / ((⟨(100000000000000000000 : ℤ), 0⟩ : Dy)).val
        = (314159265358979323846 : ℝ) / (100000000000000000000 : ℝ) := by
      simp [Dy.val]
    have h3 : (314159265358979323846 : ℝ) / (100000000000000000000 : ℝ) < Real.pi := by
      have := Real.pi_gt_d20
      norm_num at this ⊢
      linarith
    rw [h2] at h1
    exact le_trans h1 h3.le
  · have h1 := Dy.le_divUp P ⟨314159265358979323847, 0⟩ ⟨100000000000000000000, 0⟩
      (by norm_num)
    have h2 : ((⟨(314159265358979323847 : ℤ), 0⟩ : Dy)).val
        / ((⟨(100000000000000000000 : ℤ), 0⟩ : Dy)).val
        = (314159265358979323847 : ℝ) / (100000000000000000000 : ℝ) := by
      simp [Dy.val]
    have h3 : Real.pi < (314159265358979323847 : ℝ) / (100000000000000000000 : ℝ) := by
      have := Real.pi_lt_d20
      norm_num at this ⊢
      linarith
    rw [h2] at h1
    exact le_trans h3.le h1

end Iv
end InfoArena

namespace InfoArena
namespace Iv

/-! ### The interval mirror of the Glicko-2 update pipeline -/

def zeroI : Iv := exact ⟨0, 0⟩

def fVolI (P : ℕ) (dsq ph2 v aI : Iv) (tau : Dy) (xI : Iv) : Option Iv := do
  let ex ← expI P xI
  let num := mulI P ex (subI P (subI P (subI P dsq ph2) v) ex)
  let s := addI P (addI P ph2 v) ex
  let den := mulI P (ofInt 2) (mulI P s s)
  let q1 ← divI P num den
  let q2 ← divI P (subI P xI aI) (mulI P (exact tau) (exact tau))
  pure (subI P q1 q2)

def bracketSearchI (P : ℕ) (dsq ph2 v aI : Iv) (tau : Dy) :
    ℕ → Iv → Option Iv
  | 0, xI => some xI
  | n + 1, xI => do
    let fx ← fVolI P dsq ph2 v aI tau (subI P xI (exact tau))
    let d ← decLt fx zeroI
    if d then bracketSearchI P dsq ph2 v aI tau n (subI P xI (exact tau))
    else some (subI P xI (exact tau))

def illinoisI (P : ℕ) (dsq ph2 v aI : Iv) (tau : Dy) (epsIv : Iv) :
    ℕ → Iv → Iv → Iv → Iv → Option (Iv × Bool)
  | 0, AI, _, _, _ => some (AI, false)
  | n + 1, AI, BI, fAI, fBI => do
    let c ← decLe (absI (subI P BI AI)) epsIv
    if c then some (AI, true)
    else do
      let den ← invI P (subI P fBI fAI)
      let CI := addI P AI (mulI P (mulI P (subI P AI BI) fAI) den)
      let fCI ← fVolI P dsq ph2 v aI tau CI
      let d ← decLt (mulI P fCI fBI) zeroI
      if d then illinoisI P dsq ph2 v aI tau epsIv n BI CI fBI fCI
      else illinoisI P dsq ph2 v aI tau epsIv n AI CI (halfI fAI) fCI

def volBI (P maxIter : ℕ) (dsq ph2 v aI : Iv) (tau : Dy) (c : Bool) : Option Iv :=
  if c then logI P (subI P (subI P dsq ph2) v)
  else bracketSearchI P dsq ph2 v aI tau maxIter aI

def volSolveI (P F maxIter : ℕ) (dsq ph2 v sigI : Iv) (tau : Dy) (epsIv : Iv) :
    Option (Iv × Bool) := do
  let aI ← logI P (mulI P sigI sigI)
  let c ← decLt (addI P ph2 v) dsq
  let BI ← volBI P maxIter dsq ph2 v aI tau c
  let fA ← fVolI P dsq ph2 v aI tau aI
  let fB ← fVolI P dsq ph2 v aI tau BI
  let r ← illinoisI P dsq ph2 v aI tau epsIv maxIter aI BI fA fB
  if r.2 then do
    let sn ← expI P (halfI r.1)
    pure (sn, true)
  else
    pure (sigI, false)

def toInternal (P : ℕ) (muD phiD : Iv) : Option (Iv × Iv) := do
  let mu ← divI P (subI P muD (ofInt 1500)) (ratI P 1737178 10000)
  let phi ← divI P phiD (ratI P 1737178 10000)
  pure (mu, phi)

def gOf (P F : ℕ) (phiJ : Iv) : Option Iv := do
  let inner ← divI P (mulI P (ofInt 3) (mulI P phiJ phiJ)) (mulI P (piI P) (piI P))
  invI P (sqrtI P F (addI P (ofInt 1) inner))

def eOf (P : ℕ) (mu muJ g : Iv) : Option Iv := do
  let eexp ← expI P (negI (mulI P g (subI P mu muJ)))
  invI P (addI P (ofInt 1) eexp)

def vDeltaOf (P : ℕ) (g E : Iv) (score : Dy) : Option (Iv × Iv) := do
  let v ← invI P (mulI P (mulI P (mulI P g g) E) (subI P (ofInt 1) E))
  pure (v, mulI P (mulI P v g) (subI P (exact score) E))

def finishOf (P F : ℕ) (mu phi g E v sn : Iv) (score : Dy) : Option (Iv × Iv) := do
  let ps2 ← invI P (mulI P (sqrtI P F (addI P (mulI P phi phi) (mulI P sn sn)))
    (sqrtI P F (addI P (mulI P phi phi) (mulI P sn sn))))
  let vinv ← invI P v
  let pp ← invI P (sqrtI P F (addI P ps2 vinv))
  pure (addI P (mulI P (addI P mu (mulI P (mulI P (mulI P pp pp) g)
      (subI P (exact score) E))) (ratI P 1737178 10000)) (ofInt 1500),
    mulI P pp (ratI P 1737178 10000))

def updateRatingI (P F maxIter : ℕ) (muD phiD sigI muJD phiJD : Iv) (score tau : Dy)
    (epsIv : Iv) : Option (Iv × Iv × Iv × Bool) := do
  let mp ← toInternal P muD phiD
  let mpJ ← toInternal P muJD phiJD
  let g ← gOf P F mpJ.2
  let E ← eOf P mp.1 mpJ.1 g
  let vd ← vDeltaOf P g E score
  let r ← volSolveI P F maxIter (mulI P vd.2 vd.2) (mulI P mp.2 mp.2) vd.1 sigI tau epsIv
  let mnp ← finishOf P F mp.1 mp.2 g E vd.1 r.1 score
  pure (mnp.1, mnp.2, r.1, r.2)

end Iv
end InfoArena





namespace InfoArena
namespace Iv

/-! ### Soundness of the interval pipeline against the real model -/

theorem bindElim {α β : Type} {x : Option α} {f : α → Option β} {J : β}
    (h : x >>= f = some J) : ∃ a, x = some a ∧ f a = some J := by
  cases hx : x with
  | none => rw [hx] at h; exact absurd h (by simp)
  | some a => rw [hx] at h; exact ⟨a, rfl, h⟩

theorem memI_zeroI : memI (0 : ℝ) zeroI := by
  constructor <;> simp [zeroI, exact, Dy.val]

theorem fVolI_sound (P : ℕ) {dsqR ph2R vR aR x : ℝ} {dsq ph2 v aI xI : Iv} {tau : Dy}
    (hdsq : memI dsqR dsq) (hph2 : memI ph2R ph2) (hv : memI vR v)
    (ha : memI aR aI) (hx : memI x xI) {J : Iv}
    (hJ : fVolI P dsq ph2 v aI tau xI = some J) :
    memI (fVol dsqR ph2R vR aR tau.val x) J := by
  rw [fVolI] at hJ
  obtain ⟨ex, hex, hJ⟩ := bindElim hJ
  obtain ⟨q1, hq1, hJ⟩ := bindElim hJ
  obtain ⟨q2, hq2, hJ⟩ := bindElim hJ
  obtain rfl : subI P q1 q2 = J := Option.some.inj hJ
  have hexm : memI (Real.exp x) ex := memI_expI P hx hex
  have h1 := memI_divI P
    (memI_mulI P hexm (memI_subI P (memI_subI P (memI_subI P hdsq hph2) hv) hexm))
    (memI_mulI P (memI_ofInt 2)
      (memI_mulI P (memI_addI P (memI_addI P hph2 hv) hexm)
        (memI_addI P (memI_addI P hph2 hv) hexm))) hq1
  rw [show (((2 : ℤ) : ℝ) * ((ph2R + vR + Real.exp x) * (ph2R + vR + Real.exp x)))
      = 2 * (ph2R + vR + Real.exp x) ^ 2 by push_cast; ring] at h1
  have h2 := memI_divI P (memI_subI P hx ha)
    (memI_mulI P (memI_exact tau) (memI_exact tau)) hq2
  rw [show (tau.val * tau.val) = tau.val ^ 2 by ring] at h2
  have h3 := memI_subI P h1 h2
  simp only [fVol]
  exact h3

theorem bracketSearchI_sound (P : ℕ) {dsqR ph2R vR aR : ℝ} {dsq ph2 v aI : Iv} {tau : Dy}
    (hdsq : memI dsqR dsq) (hph2 : memI ph2R ph2) (hv : memI vR v) (ha : memI aR aI) :
    ∀ (fuel : ℕ) {x : ℝ} {xI : Iv}, memI x xI → ∀ {J : Iv},
      bracketSearchI P dsq ph2 v aI tau fuel xI = some J →
      memI (bracketSearch (fVol dsqR ph2R vR aR tau.val) tau.val fuel x) J := by
  intro fuel
  induction fuel with
  | zero =>
    intro x xI hx J hJ
    simp only [bracketSearchI] at hJ
    obtain rfl : xI = J := Option.some.inj hJ
    simpa [bracketSearch] using hx
  | succ n ih =>
    intro x xI hx J hJ
    simp only [bracketSearchI] at hJ
    obtain ⟨fx, hfx, hJ⟩ := bindElim hJ
    obtain ⟨d, hd, hJ⟩ := bindElim hJ
    have hsub : memI (x - tau.val) (subI P xI (exact tau)) :=
      memI_subI P hx (memI_exact tau)
    have hfxm := fVolI_sound P hdsq hph2 hv ha hsub hfx
    cases d with
    | true =>
      rw [if_pos rfl] at hJ
      have hlt : fVol dsqR ph2R vR aR tau.val (x - tau.val) < 0 :=
        decLt_true hfxm memI_zeroI hd
      rw [bracketSearch, if_pos hlt]
      exact ih hsub hJ
    | false =>
      rw [if_neg Bool.false_ne_true] at hJ
      obtain rfl : subI P xI (exact tau) = J := Option.some.inj hJ
      have hnlt : ¬ fVol dsqR ph2R vR aR tau.val (x - tau.val) < 0 :=
        decLt_false hfxm memI_zeroI hd
      rw [bracketSearch, if_neg hnlt]
      exact hsub

end Iv
end InfoArena

namespace InfoArena
namespace Iv

theorem illinoisI_sound (P : ℕ) {dsqR ph2R vR aR epsR : ℝ} {dsq ph2 v aI epsIv : Iv}
    {tau : Dy} (hdsq : memI dsqR dsq) (hph2 : memI ph2R ph2) (hv : memI vR v)
    (ha : memI aR aI) (heps : memI epsR epsIv) :
    ∀ (fuel : ℕ) {A B fA fB : ℝ} {AI BI fAI fBI : Iv},
      memI A AI → memI B BI → memI fA fAI → memI fB fBI → ∀ {J : Iv × Bool},
      illinoisI P dsq ph2 v aI tau epsIv fuel AI BI fAI fBI = some J →
      memI (illinois (fVol dsqR ph2R vR aR tau.val) epsR fuel A B fA fB).1 J.1 ∧
        (illinois (fVol dsqR ph2R vR aR tau.val) epsR fuel A B fA fB).2 = J.2 := by
  intro fuel
  induction fuel with
  | zero =>
    intro A B fA fB AI BI fAI fBI hA hB hfA hfB J hJ
    simp only [illinoisI] at hJ
    obtain rfl : ((AI, false) : Iv × Bool) = J := Option.some.inj hJ
    simp only [illinois]
    exact ⟨hA, by trivial⟩
  | succ n ih =>
    intro A B fA fB AI BI fAI fBI hA hB hfA hfB J hJ
    simp only [illinoisI] at hJ
    obtain ⟨c, hc, hJ⟩ := bindElim hJ
    have habs : memI |B - A| (absI (subI P BI AI)) := memI_absI (memI_subI P hB hA)
    cases c with
    | true =>
      rw [if_pos rfl] at hJ
      obtain rfl : ((AI, true) : Iv × Bool) = J := Option.some.inj hJ
      have hle : |B - A| ≤ epsR := decLe_true habs heps hc
      rw [illinois, if_pos hle]
      exact ⟨hA, rfl⟩
    | false =>
      rw [if_neg Bool.false_ne_true] at hJ
      have hnle : ¬ |B - A| ≤ epsR := decLe_false habs heps hc
      obtain ⟨den, hden, hJ⟩ := bindElim hJ
      obtain ⟨fC, hfC, hJ⟩ := bindElim hJ
      obtain ⟨d, hd, hJ⟩ := bindElim hJ
      have hdenm : memI (1 / (fB - fA)) den := memI_invI P (memI_subI P hfB hfA) hden
      have hC : memI (A + (A - B) * fA / (fB - fA))
          (addI P AI (mulI P (mulI P (subI P AI BI) fAI) den)) := by
        rw [div_eq_mul_one_div]
        exact memI_addI P hA (memI_mulI P (memI_mulI P (memI_subI P hA hB) hfA) hdenm)
      have hfCm := fVolI_sound P hdsq hph2 hv ha hC hfC
      rw [illinois, if_neg hnle]
      cases d with
      | true =>
        rw [if_pos rfl] at hJ
        have hlt : fVol dsqR ph2R vR aR tau.val (A + (A - B) * fA / (fB - fA)) * fB < 0 :=
          decLt_true (memI_mulI P hfCm hfB) memI_zeroI hd
        rw [if_pos hlt]
        exact ih hB hC hfB hfCm hJ
      | false =>
        rw [if_neg Bool.false_ne_true] at hJ
        have hnlt : ¬ fVol dsqR ph2R vR aR tau.val (A + (A - B) * fA / (fB - fA)) * fB < 0 :=
          decLt_false (memI_mulI P hfCm hfB) memI_zeroI hd
        rw [if_neg hnlt]
        exact ih hA hC (memI_halfI hfA) hfCm hJ

end Iv
end InfoArena

namespace InfoArena
namespace Iv

theorem volSolveI_sound (P F maxIter : ℕ) {dsqR ph2R vR sigmaR : ℝ}
    {dsq ph2 v sigI epsIv : Iv} {tau : Dy} (cfg : GlickoConfig)
    (hdsq : memI dsqR dsq) (hph2 : memI ph2R ph2) (hv : memI vR v) (hsig : memI sigmaR sigI)
    (htau : tau.val = cfg.tau) (heps : memI cfg.eps epsIv) (hiter : maxIter = cfg.maxIter)
    {r : Iv × Bool} (hr : volSolveI P F maxIter dsq ph2 v sigI tau epsIv = some r) :
    memI (volSolve dsqR ph2R vR sigmaR cfg).1 r.1 ∧
      (volSolve dsqR ph2R vR sigmaR cfg).2 = r.2 := by
  rw [volSolveI] at hr
  obtain ⟨aI, haI, hr⟩ := bindElim hr
  obtain ⟨c, hc, hr⟩ := bindElim hr
  obtain ⟨BI, hBI, hr⟩ := bindElim hr
  obtain ⟨fA, hfA, hr⟩ := bindElim hr
  obtain ⟨fB, hfB, hr⟩ := bindElim hr
  obtain ⟨r0, hr0, hr⟩ := bindElim hr
  have haIm : memI (volA sigmaR) aI := by
    have := memI_logI P (memI_mulI P hsig hsig) haI
    rw [show sigmaR * sigmaR = sigmaR ^ 2 by ring] at this
    simp only [volA]
    exact this
  have hBm : memI (volB dsqR ph2R vR sigmaR cfg) BI := by
    rw [volBI] at hBI
    cases c with
    | true =>
      rw [if_pos rfl] at hBI
      have hlt : ph2R + vR < dsqR := decLt_true (memI_addI P hph2 hv) hdsq hc
      have := memI_logI P (memI_subI P (memI_subI P hdsq hph2) hv) hBI
      simp only [volB, if_pos hlt]
      exact this
    | false =>
      rw [if_neg Bool.false_ne_true] at hBI
      have hnlt : ¬ ph2R + vR < dsqR := decLt_false (memI_addI P hph2 hv) hdsq hc
      have := bracketSearchI_sound P hdsq hph2 hv haIm maxIter haIm hBI
      simp only [volB, if_neg hnlt, volF]
      rw [← htau, ← hiter]
      exact this
  have hfAm := fVolI_sound P hdsq hph2 hv haIm haIm hfA
  have hfBm := fVolI_sound P hdsq hph2 hv haIm hBm hfB
  have hIll := illinoisI_sound P hdsq hph2 hv haIm heps maxIter haIm hBm hfAm hfBm hr0
  have hVI1 : memI (volIter dsqR ph2R vR sigmaR cfg).1 r0.1 := by
    simp only [volIter, volF]
    rw [← htau, ← hiter]
    exact hIll.1
  have hVI2 : (volIter dsqR ph2R vR sigmaR cfg).2 = r0.2 := by
    simp only [volIter, volF]
    rw [← htau, ← hiter]
    exact hIll.2
  cases hb : r0.2 with
  | true =>
    rw [hb, if_pos rfl] at hr
    obtain ⟨sn, hsn, hr⟩ := bindElim hr
    obtain rfl : ((sn, true) : Iv × Bool) = r := Option.some.inj hr
    have hsnm : memI (Real.exp ((volIter dsqR ph2R vR sigmaR cfg).1 / 2)) sn :=
      memI_expI P (memI_halfI hVI1) hsn
    have hvs : volSolve dsqR ph2R vR sigmaR cfg
        = (Real.exp ((volIter dsqR ph2R vR sigmaR cfg).1 / 2), true) := by
      rw [volSolve, hVI2, hb, if_pos rfl]
    rw [hvs]
    exact ⟨hsnm, rfl⟩
  | false =>
    rw [hb, if_neg Bool.false_ne_true] at hr
    obtain rfl : ((sigI, false) : Iv × Bool) = r := Option.some.inj hr
    have hvs : volSolve dsqR ph2R vR sigmaR cfg = (sigmaR, false) := by
      rw [volSolve, hVI2, hb, if_neg Bool.false_ne_true]
    rw [hvs]
    exact ⟨hsig, rfl⟩

end Iv
end InfoArena

namespace InfoArena
namespace Iv

theorem memI_scaleIv (P : ℕ) : memI glickoScale (ratI P 1737178 10000) := by
  have h := memI_ratI P 1737178 10000 (by norm_num)
  have h2 : ((1737178 : ℤ) : ℝ) / ((10000 : ℤ) : ℝ) = glickoScale := by
    norm_num [glickoScale]
  rwa [h2] at h

theorem toInternal_sound (P : ℕ) {x y : ℝ} {muD phiD : Iv}
    (hx : memI x muD) (hy : memI y phiD) {mp : Iv × Iv}
    (h : toInternal P muD phiD = some mp) :
    memI ((x - 1500) / glickoScale) mp.1 ∧ memI (y / glickoScale) mp.2 := by
  rw [toInternal] at h
  obtain ⟨mu, hmu, h⟩ := bindElim h
  obtain ⟨phi, hphi, h⟩ := bindElim h
  obtain rfl := Option.some.inj h
  have h1 := memI_divI P (memI_subI P hx (memI_ofInt 1500)) (memI_scaleIv P) hmu
  rw [show ((1500 : ℤ) : ℝ) = (1500 : ℝ) by norm_num] at h1
  exact ⟨h1, memI_divI P hy (memI_scaleIv P) hphi⟩

theorem gOf_sound (P F : ℕ) {pJ : ℝ} {phiJ : Iv} (h : memI pJ phiJ) {g : Iv}
    (hg : gOf P F phiJ = some g) : memI (gFactor pJ) g := by
  rw [gOf] at hg
  obtain ⟨inner, hinner, hg⟩ := bindElim hg
  have h1 := memI_divI P (memI_mulI P (memI_ofInt 3) (memI_mulI P h h))
    (memI_mulI P (memI_piI P) (memI_piI P)) hinner
  rw [show ((3 : ℤ) : ℝ) * (pJ * pJ) = 3 * pJ ^ 2 by push_cast; ring,
    show Real.pi * Real.pi = Real.pi ^ 2 by ring] at h1
  have h2 := memI_invI P (memI_sqrtI P F (memI_addI P (memI_ofInt 1) h1)) hg
  rw [show ((1 : ℤ) : ℝ) = (1 : ℝ) by norm_num] at h2
  simp only [gFactor]
  exact h2

theorem eOf_sound (P : ℕ) {mR mJR gR : ℝ} {mu muJ g : Iv}
    (hm : memI mR mu) (hmJ : memI mJR muJ) (hg : memI gR g) {E : Iv}
    (hE : eOf P mu muJ g = some E) :
    memI (1 / (1 + Real.exp (-gR * (mR - mJR)))) E := by
  rw [eOf] at hE
  obtain ⟨eexp, heexp, hE⟩ := bindElim hE
  have h1 := memI_expI P (memI_negI (memI_mulI P hg (memI_subI P hm hmJ))) heexp
  rw [show -(gR * (mR - mJR)) = -gR * (mR - mJR) by ring] at h1
  have h2 := memI_invI P (memI_addI P (memI_ofInt 1) h1) hE
  rw [show ((1 : ℤ) : ℝ) = (1 : ℝ) by norm_num] at h2
  exact h2

theorem vDeltaOf_sound (P : ℕ) {gR ER : ℝ} {g E : Iv} (score : Dy)
    (hg : memI gR g) (hE : memI ER E) {vd : Iv × Iv}
    (h : vDeltaOf P g E score = some vd) :
    memI (1 / (gR ^ 2 * ER * (1 - ER))) vd.1 ∧
      memI (1 / (gR ^ 2 * ER * (1 - ER)) * gR * (score.val - ER)) vd.2 := by
  rw [vDeltaOf] at h
  obtain ⟨v, hv, h⟩ := bindElim h
  obtain rfl := Option.some.inj h
  have h1 := memI_invI P (memI_mulI P (memI_mulI P (memI_mulI P hg hg) hE)
    (memI_subI P (memI_ofInt 1) hE)) hv
  rw [show gR * gR = gR ^ 2 by ring, show ((1 : ℤ) : ℝ) = (1 : ℝ) by norm_num] at h1
  exact ⟨h1, memI_mulI P (memI_mulI P h1 hg) (memI_subI P (memI_exact score) hE)⟩

theorem finishOf_sound (P F : ℕ) {mR pR gR ER vR snR : ℝ} {mu phi g E v sn : Iv}
    (score : Dy) (hm : memI mR mu) (hp : memI pR phi) (hg : memI gR g)
    (hE : memI ER E) (hv : memI vR v) (hsn : memI snR sn) {mnp : Iv × Iv}
    (h : finishOf P F mu phi g E v sn score = some mnp) :
    memI ((mR + phiPrimeOf (phiStarOf pR snR) vR ^ 2 * gR * (score.val - ER))
        * glickoScale + 1500) mnp.1 ∧
      memI (phiPrimeOf (phiStarOf pR snR) vR * glickoScale) mnp.2 := by
  rw [finishOf] at h
  obtain ⟨ps2, hps2, h⟩ := bindElim h
  obtain ⟨vinv, hvinv, h⟩ := bindElim h
  obtain ⟨pp, hpp, h⟩ := bindElim h
  obtain rfl := Option.some.inj h
  have hstar : memI (phiStarOf pR snR)
      (sqrtI P F (addI P (mulI P phi phi) (mulI P sn sn))) := by
    have h0 := memI_sqrtI P F (memI_addI P (memI_mulI P hp hp) (memI_mulI P hsn hsn))
    rw [show pR * pR = pR ^ 2 by ring, show snR * snR = snR ^ 2 by ring] at h0
    simp only [phiStarOf]
    exact h0
  have h1 := memI_invI P (memI_mulI P hstar hstar) hps2
  rw [show phiStarOf pR snR * phiStarOf pR snR = phiStarOf pR snR ^ 2 by ring] at h1
  have h2 := memI_invI P hv hvinv
  have h3 := memI_invI P (memI_sqrtI P F (memI_addI P h1 h2)) hpp
  have hppP : memI (phiPrimeOf (phiStarOf pR snR) vR) pp := by
    simp only [phiPrimeOf]
    exact h3
  constructor
  · have h4 := memI_addI P (memI_mulI P (memI_addI P hm (memI_mulI P (memI_mulI P
      (memI_mulI P hppP hppP) hg) (memI_subI P (memI_exact score) hE))) (memI_scaleIv P))
      (memI_ofInt 1500)
    rw [show phiPrimeOf (phiStarOf pR snR) vR * phiPrimeOf (phiStarOf pR snR) vR
        = phiPrimeOf (phiStarOf pR snR) vR ^ 2 by ring,
      show ((1500 : ℤ) : ℝ) = (1500 : ℝ) by norm_num] at h4
    exact h4
  · exact memI_mulI P hppP (memI_scaleIv P)

theorem updateRatingI_sound (P F maxIter : ℕ) (r rJ : Rating) (score : Dy)
    (cfg : GlickoConfig) {muD phiD sigI muJD phiJD epsIv : Iv} {tau : Dy}
    (hmu : memI r.mu muD) (hphi : memI r.phi phiD) (hsig : memI r.sigma sigI)
    (hmuJ : memI rJ.mu muJD) (hphiJ : memI rJ.phi phiJD)
    (htau : tau.val = cfg.tau) (heps : memI cfg.eps epsIv) (hiter : maxIter = cfg.maxIter)
    {res : Iv × Iv × Iv × Bool}
    (hres : updateRatingI P F maxIter muD phiD sigI muJD phiJD score tau epsIv = some res) :
    memI (updateRating r rJ score.val cfg).1.mu res.1 ∧
      memI (updateRating r rJ score.val cfg).1.phi res.2.1 ∧
      memI (updateRating r rJ score.val cfg).1.sigma res.2.2.1 ∧
      (updateRating r rJ score.val cfg).2 = !res.2.2.2 := by
  rw [updateRatingI] at hres
  obtain ⟨mp, hmp, hres⟩ := bindElim hres
  obtain ⟨mpJ, hmpJ, hres⟩ := bindElim hres
  obtain ⟨g, hg, hres⟩ := bindElim hres
  obtain ⟨E, hE, hres⟩ := bindElim hres
  obtain ⟨vd, hvd, hres⟩ := bindElim hres
  obtain ⟨r0, hr0, hres⟩ := bindElim hres
  obtain ⟨mnp, hmnp, hres⟩ := bindElim hres
  obtain rfl := Option.some.inj hres
  have h1 := toInternal_sound P hmu hphi hmp
  have h2 := toInternal_sound P hmuJ hphiJ hmpJ
  have hgm := gOf_sound P F h2.2 hg
  have hEm : memI (expectedScore ((r.mu - 1500) / glickoScale)
      ((rJ.mu - 1500) / glickoScale) (rJ.phi / glickoScale)) E :=
    eOf_sound P h1.1 h2.1 hgm hE
  have hvdm := vDeltaOf_sound P score hgm hEm hvd
  have hv2 : memI (vOf ((r.mu - 1500) / glickoScale) ((rJ.mu - 1500) / glickoScale)
      (rJ.phi / glickoScale)) vd.1 := hvdm.1
  have hd2 : memI (deltaOf ((r.mu - 1500) / glickoScale) ((rJ.mu - 1500) / glickoScale)
      (rJ.phi / glickoScale) score.val) vd.2 := hvdm.2
  have hdsqm : memI (deltaOf ((r.mu - 1500) / glickoScale) ((rJ.mu - 1500) / glickoScale)
      (rJ.phi / glickoScale) score.val ^ 2) (mulI P vd.2 vd.2) := by
    rw [pow_two]
    exact memI_mulI P hd2 hd2
  have hph2m : memI ((r.phi / glickoScale) ^ 2) (mulI P mp.2 mp.2) := by
    rw [pow_two]
    exact memI_mulI P h1.2 h1.2
  have hvs := volSolveI_sound P F maxIter cfg hdsqm hph2m hv2 hsig htau heps hiter hr0
  have hsnm : memI (sigmaNewOf ((r.mu - 1500) / glickoScale) (r.phi / glickoScale)
      r.sigma ((rJ.mu - 1500) / glickoScale) (rJ.phi / glickoScale) score.val cfg)
      r0.1 := hvs.1
  have hconv : convOf ((r.mu - 1500) / glickoScale) (r.phi / glickoScale)
      r.sigma ((rJ.mu - 1500) / glickoScale) (rJ.phi / glickoScale) score.val cfg
      = r0.2 := hvs.2
  have hfin := finishOf_sound P F score h1.1 h1.2 hgm hEm hv2 hsnm hmnp
  exact ⟨hfin.1, hfin.2, hsnm, congrArg Bool.not hconv⟩

end Iv
end InfoArena

namespace InfoArena
namespace Iv

set_option maxRecDepth 100000
set_option maxHeartbeats 40000000
set_option exponentiation.threshold 2000

def c1m1_muD2 : Iv := ⟨⟨2285151630050687513312957148777454403677837462481109, 160⟩, ⟨2285151630050687513312964946480732094492527395627271, 160⟩⟩

def c1m1_phiD2 : Iv := ⟨⟨256351268846387122636804856490867481669748316155011, 160⟩, ⟨256351268846387122636808034590248624832197651880163, 160⟩⟩

def c1m1_sn : Iv := ⟨⟨87688135888690518662147852407664644785408062217, 160⟩, ⟨87688135888690518662155160942717184482048916563, 160⟩⟩

def c1m2_muD2 : Iv := ⟨⟨2180938585858581629300191637936468815103219659161529, 160⟩, ⟨2180938585858581629300249180346522181932717354826415, 160⟩⟩

def c1m2_phiD2 : Iv := ⟨⟨231359497527640597682882261155851030902823227803207, 160⟩, ⟨231359497527640597682899383988653448129434940541372, 160⟩⟩

def c1m2_sn : Iv := ⟨⟨87687679610383350840216103777020291502497764756, 160⟩, ⟨87687679610383350840267730288635053194371065173, 160⟩⟩

def c1m3_muD2 : Iv := ⟨⟨2139329102515216715447904036431427428492185887052636, 160⟩, ⟨2139329102515216715448091021021404876025977110248913, 160⟩⟩

def c1m3_phiD2 : Iv := ⟨⟨221962949669120219710984951748686564430641184215674, 160⟩, ⟨221962949669120219711045118401729280895468836936927, 160⟩⟩

def c1m3_sn : Iv := ⟨⟨87686465019655326979096361193323624567087406650, 160⟩, ⟨87686465019655326979416703244629422788743424078, 160⟩⟩

theorem c1m1_upd : updateRatingI 160 25 100 (ofInt 1500) (ofInt 200) (ratI 160 3 50) (ofInt 1400) (ofInt 30) (⟨1, 0⟩ : Dy) (⟨1, 1⟩ : Dy) (ratI 160 1 1000000) = some (c1m1_muD2, c1m1_phiD2, c1m1_sn, true) := rfl

theorem c1m2_upd : updateRatingI 160 25 100 c1m1_muD2 c1m1_phiD2 c1m1_sn (ofInt 1550) (ofInt 100) (⟨0, 0⟩ : Dy) (⟨1, 1⟩ : Dy) (ratI 160 1 1000000) = some (c1m2_muD2, c1m2_phiD2, c1m2_sn, true) := rfl

theorem c1m3_upd : updateRatingI 160 25 100 c1m2_muD2 c1m2_phiD2 c1m2_sn (ofInt 1700) (ofInt 300) (⟨0, 0⟩ : Dy) (⟨1, 1⟩ : Dy) (ratI 160 1 1000000) = some (c1m3_muD2, c1m3_phiD2, c1m3_sn, true) := rfl

end Iv
end InfoArena

namespace InfoArena

/-- The reference run, first match: `{1500, 200, 0.06}` vs `{1400, 30, 0.06}`, win. -/
noncomputable def c1s1 : Rating × Bool :=
  updateRating ⟨1500, 200, 0.06⟩ ⟨1400, 30, 0.06⟩ 1 stdConfig

/-- Second match: vs `{1550, 100, 0.06}`, loss. -/
noncomputable def c1s2 : Rating × Bool := updateRating c1s1.1 ⟨1550, 100, 0.06⟩ 0 stdConfig

/-- Third match: vs `{1700, 300, 0.06}`, loss. -/
noncomputable def c1s3 : Rating × Bool := updateRating c1s2.1 ⟨1700, 300, 0.06⟩ 0 stdConfig

/-- C1: with `tau = 0.5`, the source `{1500, 200, 0.06}` playing the three
pairwise matches of one period — win vs `{1400, 30, 0.06}`, loss vs
`{1550, 100, 0.06}`, loss vs `{1700, 300, 0.06}` — ends within `±0.5` of
`mu = 1464.06` and `phi = 151.52` and within `±0.0005` of
`sigma = 0.05999`.  Proved by a verified dyadic interval evaluation of the
whole pipeline (the three kernel-checked `c1m*_upd` enclosures) composed
with the interval soundness of `updateRatingI`. -/
theorem glicko_reference_vector :
    |c1s3.1.mu - 1464.06| ≤ 0.5 ∧ |c1s3.1.phi - 151.52| ≤ 0.5 ∧
      |c1s3.1.sigma - 0.05999| ≤ 0.0005 := by
  have h1500 : memI (1500 : ℝ) (Iv.ofInt 1500) := by simpa using Iv.memI_ofInt 1500
  have h200 : memI (200 : ℝ) (Iv.ofInt 200) := by simpa using Iv.memI_ofInt 200
  have h1400 : memI (1400 : ℝ) (Iv.ofInt 1400) := by simpa using Iv.memI_ofInt 1400
  have h30 : memI (30 : ℝ) (Iv.ofInt 30) := by simpa using Iv.memI_ofInt 30
  have h1550 : memI (1550 : ℝ) (Iv.ofInt 1550) := by simpa using Iv.memI_ofInt 1550
  have h100 : memI (100 : ℝ) (Iv.ofInt 100) := by simpa using Iv.memI_ofInt 100
  have h1700 : memI (1700 : ℝ) (Iv.ofInt 1700) := by simpa using Iv.memI_ofInt 1700
  have h300 : memI (300 : ℝ) (Iv.ofInt 300) := by simpa using Iv.memI_ofInt 300
  have hsig : memI (0.06 : ℝ) (Iv.ratI 160 3 50) := by
    have h := Iv.memI_ratI 160 3 50 (by norm_num)
    have h2 : ((3 : ℤ) : ℝ) / ((50 : ℤ) : ℝ) = (0.06 : ℝ) := by norm_num
    rwa [h2] at h
  have htau : ((⟨1, 1⟩ : Dy)).val = stdConfig.tau := by
    norm_num [Dy.val, stdConfig]
  have heps : memI stdConfig.eps (Iv.ratI 160 1 1000000) := by
    have h := Iv.memI_ratI 160 1 1000000 (by norm_num)
    have h2 : ((1 : ℤ) : ℝ) / ((1000000 : ℤ) : ℝ) = stdConfig.eps := by
      norm_num [stdConfig]
    rwa [h2] at h
  have hiter : (100 : ℕ) = stdConfig.maxIter := rfl
  have hs1 := Iv.updateRatingI_sound 160 25 100 ⟨1500, 200, 0.06⟩ ⟨1400, 30, 0.06⟩
    ⟨1, 0⟩ stdConfig h1500 h200 hsig h1400 h30 htau heps hiter Iv.c1m1_upd
  rw [show ((⟨1, 0⟩ : Dy)).val = 1 by norm_num [Dy.val]] at hs1
  have hs2 := Iv.updateRatingI_sound 160 25 100 c1s1.1 ⟨1550, 100, 0.06⟩
    ⟨0, 0⟩ stdConfig hs1.1 hs1.2.1 hs1.2.2.1 h1550 h100 htau heps hiter Iv.c1m2_upd
  rw [show ((⟨0, 0⟩ : Dy)).val = 0 by norm_num [Dy.val]] at hs2
  have hs3 := Iv.updateRatingI_sound 160 25 100 c1s2.1 ⟨1700, 300, 0.06⟩
    ⟨0, 0⟩ stdConfig hs2.1 hs2.2.1 hs2.2.2.1 h1700 h300 htau heps hiter Iv.c1m3_upd
  rw [show ((⟨0, 0⟩ : Dy)).val = 0 by norm_num [Dy.val]] at hs3
  obtain ⟨hmu, hphi, hsigf, hw⟩ := hs3
  have hmu1 : Iv.c1m3_muD2.lo.val ≤ c1s3.1.mu := hmu.1
  have hmu2 : c1s3.1.mu ≤ Iv.c1m3_muD2.hi.val := hmu.2
  have hphi1 : Iv.c1m3_phiD2.lo.val ≤ c1s3.1.phi := hphi.1
  have hphi2 : c1s3.1.phi ≤ Iv.c1m3_phiD2.hi.val := hphi.2
  have hsg1 : Iv.c1m3_sn.lo.val ≤ c1s3.1.sigma := hsigf.1
  have hsg2 : c1s3.1.sigma ≤ Iv.c1m3_sn.hi.val := hsigf.2
  have bmu1 : (1463.56 : ℝ) ≤ Iv.c1m3_muD2.lo.val := by
    norm_num [Iv.c1m3_muD2, Dy.val]
  have bmu2 : Iv.c1m3_muD2.hi.val ≤ (1464.56 : ℝ) := by
    norm_num [Iv.c1m3_muD2, Dy.val]
  have bphi1 : (151.02 : ℝ) ≤ Iv.c1m3_phiD2.lo.val := by
    norm_num [Iv.c1m3_phiD2, Dy.val]
  have bphi2 : Iv.c1m3_phiD2.hi.val ≤ (152.02 : ℝ) := by
    norm_num [Iv.c1m3_phiD2, Dy.val]
  have bsg1 : (0.05949 : ℝ) ≤ Iv.c1m3_sn.lo.val := by
    norm_num [Iv.c1m3_sn, Dy.val]
  have bsg2 : Iv.c1m3_sn.hi.val ≤ (0.06049 : ℝ) := by
    norm_num [Iv.c1m3_sn, Dy.val]
  refine ⟨?_, ?_, ?_⟩
  · rw [abs_le]
    exact ⟨by linarith, by linarith⟩
  · rw [abs_le]
    exact ⟨by linarith, by linarith⟩
  · rw [abs_le]
    exact ⟨by linarith, by linarith⟩

end InfoArena
